import Mathlib

/-!
Verification of the SPy compiler middle end against its specification.

This file gives a shallow embedding, in Lean 4, of the parts of the SPy
repository that the specification talks about:

* the fully-qualified-name (FQN) system of `spy/fqn.py` and its parser
  `spy/fqn_parser.py` (rendering, mangling, tokenizing, recursive-descent
  parsing);
* the binary-operator multimethod dispatch of
  `spy/vm/modules/operator/binop.py`;
* the bytecode compiler of `spy/irgen/codegen.py` together with the opcode
  objects of `spy/vm/codeobject.py`;
* the struct layout computation of `spy/vm/modules/unsafe/struct.py`.

Python data is modelled by plain inductive data, Python exceptions by
`Except`, and the few mutable-object effects that matter (backpatching of
opcode arguments, the aliasing behaviour of `FQN.with_suffix`) by explicit
state passing over immutable snapshots.  Components of the repository that
the claims depend on but whose sources are not available (the interior of
`MultiMethodTable`, `sizeof`, the type hierarchy oracles) are modelled from
the specification and marked as such in their doc comments.
-/

set_option maxRecDepth 10000

/-- Decidable equality for `Except`, used to state concrete evaluations of
fallible functions. -/
instance {ε α : Type} [DecidableEq ε] [DecidableEq α] : DecidableEq (Except ε α) :=
  fun x y =>
    match x, y with
    | .ok a, .ok b =>
      if h : a = b then .isTrue (by rw [h]) else .isFalse (by intro hh; cases hh; exact h rfl)
    | .ok _, .error _ => .isFalse (by intro hh; cases hh)
    | .error _, .ok _ => .isFalse (by intro hh; cases hh)
    | .error e, .error f =>
      if h : e = f then .isTrue (by rw [h]) else .isFalse (by intro hh; cases hh; exact h rfl)

namespace Spy

/-! ## The FQN data model, from spy/fqn.py

An `FQN` is a list of namespace parts; each `NSPart` has a name, a list of
qualifier FQNs and an optional suffix (empty string when absent).  Because
qualifiers nest FQNs inside parts, the three shapes are defined as a mutual
inductive family: `PartList` plays the role of `list[NSPart]` (the `parts`
attribute of class `FQN`) and `QualList` the role of `list[FQN]` (the
`qualifiers` attribute of `NSPart`). -/

mutual
inductive NSPart : Type where
  | mk (name : String) (qualifiers : QualList) (suffix : String) : NSPart
inductive QualList : Type where
  | nil : QualList
  | cons (q : PartList) (rest : QualList) : QualList
inductive PartList : Type where
  | nil : PartList
  | cons (p : NSPart) (rest : PartList) : PartList
end

/-- Name of an `NSPart`. -/
def NSPart.name : NSPart → String
  | .mk n _ _ => n

/-- Qualifiers of an `NSPart`. -/
def NSPart.qualifiers : NSPart → QualList
  | .mk _ q _ => q

/-- Suffix of an `NSPart`. -/
def NSPart.suffix : NSPart → String
  | .mk _ _ s => s

/-- Python `'sep'.join(strings)`. -/
def joinSep (sep : String) : List String → String
  | [] => ""
  | [s] => s
  | s :: rest => s ++ sep ++ joinSep sep rest

/-! ### Rendering, from NSPart.__str__, FQN._fullname and FQN.human_name

`NSPart.__str__` renders `name[q0, q1, ...]#suffix`, where each qualifier is
rendered with its `human_name`.  `human_name` omits a leading part that
renders as `builtins`, and special-cases the two-part form
`builtins::def[...]` into `def(p0, ..., pn-1) -> r`.  The mutual functions
below follow those methods line by line; `humanName .nil` returns `""`
(Python would render the empty join). -/

mutual
/-- Embedding of `NSPart.__str__`. -/
def NSPart.str : NSPart → String
  | .mk name quals suffix =>
    let base := match quals with
      | .nil => name
      | _ => name ++ "[" ++ joinSep ", " (humanList quals) ++ "]"
    if suffix ≠ "" then base ++ "#" ++ suffix else base

/-- Renders every qualifier of a list with its human name, as in the
comprehension `', '.join(q.human_name for q in self.qualifiers)`. -/
def humanList : QualList → List String
  | .nil => []
  | .cons q qs => humanName q :: humanList qs

/-- Renders every part with `NSPart.__str__`, as in the comprehension
`'::'.join(str(part) for part in parts)`. -/
def strList : PartList → List String
  | .nil => []
  | .cons p ps => p.str :: strList ps

/-- Embedding of `FQN.human_name` (together with the `human=True` branch of
`FQN._fullname`): the reserved two-part `builtins::def[...]` form renders as
`def(...) -> r`, otherwise a leading part rendering as `builtins` is
dropped.  When the `def` form has no qualifiers Python raises `IndexError`
on `quals[-1]`; the embedding returns the join with an empty result slot,
a point no claim depends on. -/
def humanName : PartList → String
  | .nil => ""
  | .cons p (.cons p2 .nil) =>
    if p.str = "builtins" && p2.name = "def" then defForm p2
    else if p.str = "builtins" then joinSep "::" (strList (.cons p2 .nil))
    else joinSep "::" (p.str :: strList (.cons p2 .nil))
  | .cons p rest =>
    if p.str = "builtins" then joinSep "::" (strList rest)
    else joinSep "::" (p.str :: strList rest)

/-- Renders the reserved `builtins::def[p0, ..., pn, r]` symbol part as
`def(p0, ..., pn-1) -> r`, following the `is_def` branch of
`FQN.human_name`. -/
def defForm : NSPart → String
  | .mk _ quals _ =>
    let qs := humanList quals
    "def(" ++ joinSep ", " qs.dropLast ++ ") -> " ++ (qs.getLast?.getD "")
end

/-- Embedding of `FQN.fullname` (property `fullname`, i.e. `_fullname` with
`human=False`): parts joined by `::`, each rendered by `NSPart.__str__`. -/
def fullname (parts : PartList) : String := joinSep "::" (strList parts)

/-- Embedding of `FQN.__eq__`: equality is defined exclusively on the
canonical string form. -/
def fqnEq (a b : PartList) : Bool := fullname a = fullname b

/-! ### Mangling, from NSPart.c_name, FQN.c_name_plain and FQN.c_name -/

/-- Embedding of `self.name.replace('.', '_')`.  For a one-character
pattern, Python str.replace substitutes character by character. -/
def dotToUnder (s : String) : String :=
  String.mk (s.data.map fun c => if c = '.' then '_' else c)

mutual
/-- Embedding of the property `NSPart.c_name`: the name with `.` replaced
by `_`; if qualifiers exist, `__` then the qualifiers own plain mangled
names joined by `_`; a suffix is appended with `$`. -/
def NSPart.cName : NSPart → String
  | .mk name quals suffix =>
    let nm := dotToUnder name
    let base := match quals with
      | .nil => nm
      | _ => nm ++ "__" ++ joinSep "_" (cPlainQuals quals)
    if suffix ≠ "" then base ++ "$" ++ suffix else base

/-- Renders every qualifier with `FQN.c_name_plain`, as in the
comprehension `'_'.join(fqn.c_name_plain for fqn in self.qualifiers)`. -/
def cPlainQuals : QualList → List String
  | .nil => []
  | .cons q qs => joinSep "$" (cNameList q) :: cPlainQuals qs

/-- Renders every part with `NSPart.c_name`, as in the comprehension
`'$'.join(part.c_name for part in self.parts)`. -/
def cNameList : PartList → List String
  | .nil => []
  | .cons p ps => p.cName :: cNameList ps
end

/-- Embedding of the property `FQN.c_name_plain`. -/
def c_name_plain (parts : PartList) : String := joinSep "$" (cNameList parts)

/-- Embedding of the property `FQN.c_name`: `spy_` followed by the plain
mangled form. -/
def c_name (parts : PartList) : String := "spy_" ++ c_name_plain parts

/-! ### A mangling definition written from the specification text

For the refinement claim about the mangled identifier form, `mangleSpec`
below is written from the words of the specification (`spy_` + segments
joined by `$`; per segment, `.` becomes `_` in the name, qualifiers joined
by `_` follow a `__`, the suffix is appended as `$suffix`), to be compared
with the embedding `c_name` taken from the source. -/

mutual
/-- Specification-side mangled form of one segment. -/
def mangleSpecPart : NSPart → String
  | .mk name quals suffix =>
    let nm := String.mk (name.data.map fun c => if c = '.' then '_' else c)
    let withQuals := match quals with
      | .nil => nm
      | _ => nm ++ "__" ++ joinSep "_" (mangleSpecQuals quals)
    if suffix ≠ "" then withQuals ++ "$" ++ suffix else withQuals

/-- Specification-side mangled forms of a qualifier list. -/
def mangleSpecQuals : QualList → List String
  | .nil => []
  | .cons q qs => joinSep "$" (mangleSpecParts q) :: mangleSpecQuals qs

/-- Specification-side mangled forms of a segment list. -/
def mangleSpecParts : PartList → List String
  | .nil => []
  | .cons p ps => mangleSpecPart p :: mangleSpecParts ps
end

/-- Specification-side mangled identifier of a whole QN. -/
def mangleSpec (parts : PartList) : String :=
  "spy_" ++ joinSep "$" (mangleSpecParts parts)

/-! ## The tokenizer and parser, from spy/fqn_parser.py -/

/-- Flushes the accumulated token characters: Python appends the current
token to the list only when it is nonempty. -/
def flushL (acc : List Char) : List String :=
  if acc.isEmpty then [] else [String.mk acc]

/-- Embedding of the loop of `tokenize`, over the remaining characters,
the accumulated token and the bracket depth.  The branches follow the
Python chain; the lookahead test `char == ':' and s[i+1] == ':'` is
hoisted into a head pattern, which is equivalent because `:` matches no
other branch, and a single `:` falls through to accumulation exactly as
in Python.  (The depth counter is dead weight carried faithfully: the
first character branch consumes every bracket at depth 0, so the depth
never changes.) -/
def tokenizeAux : List Char → List Char → Int → List String
  | [], acc, _ => flushL acc
  | ':' :: ':' :: cs, acc, depth =>
    if depth = 0 then flushL acc ++ ["::"] ++ tokenizeAux cs [] depth
    else tokenizeAux (':' :: cs) (acc ++ [':']) depth
  | c :: cs, acc, depth =>
    if c.isWhitespace then tokenizeAux cs acc depth
    else if (c = '[' ∨ c = ']' ∨ c = ',') ∧ depth = 0 then
      flushL acc ++ [String.singleton c] ++ tokenizeAux cs [] depth
    else if c = '[' then flushL acc ++ ["["] ++ tokenizeAux cs [] (depth + 1)
    else if c = ']' then flushL acc ++ ["]"] ++ tokenizeAux cs [] (depth - 1)
    else if c = '#' ∧ depth = 0 then flushL acc ++ ["#"] ++ tokenizeAux cs [] depth
    else tokenizeAux cs (acc ++ [c]) depth

/-- Embedding of `tokenize`. -/
def tokenize (s : String) : List String := tokenizeAux s.data [] 0

/-- Python `str.isspace` on a token: nonempty and all whitespace. -/
def strIsSpace (t : String) : Bool := !t.isEmpty && t.data.all (·.isWhitespace)

/-- Embedding of the whitespace-token skipping done by `FQNParser.peek`
(`while self.tokens[self.i].isspace(): self.i += 1`).  The parser
functions below thread the advanced state. -/
def skipWs (ts : List String) : List String := ts.dropWhile strIsSpace

/-- Parses the optional `#suffix` tail of a part and builds the `NSPart`,
following the second half of `FQNParser.parse_part` (`parse_suffix` reads
any one token and asserts it exists). -/
def parseSuffixPart (nm : String) (quals : QualList) (ts : List String) :
    Except String (NSPart × List String) :=
  match skipWs ts with
  | "#" :: ts1 =>
    match skipWs ts1 with
    | [] => .error "AssertionError: suffix is None"
    | sfx :: ts2 => .ok (.mk nm quals sfx, ts2)
  | ts' => .ok (.mk nm quals "", ts')

mutual

/-- Embedding of `FQNParser.parse_part`: `parse_name` takes the next
token unconditionally (asserting it exists), an optional bracketed
qualifier list follows, then the optional suffix.  The fuel argument
decreases at every nested call; the top-level entry point supplies more
fuel than any token list can consume. -/
def parse_part (fuel : Nat) (ts : List String) :
    Except String (NSPart × List String) :=
  match fuel with
  | 0 => .error "out of fuel"
  | fuel + 1 =>
    match skipWs ts with
    | [] => .error "AssertionError: name is None"
    | nm :: ts1 =>
      match skipWs ts1 with
      | "[" :: ts3 => do
        let (quals, ts4) ← parse_qualifiers fuel ts3
        match skipWs ts4 with
        | "]" :: ts5 => parseSuffixPart nm quals ts5
        | tok :: _ => .error ("Expected ], got " ++ tok)
        | [] => .error "Expected ], got None"
      | ts2 => parseSuffixPart nm .nil ts2

/-- Embedding of `FQNParser.parse_fqn`: parses parts as long as the next
token is `::`. -/
def parse_fqn (fuel : Nat) (ts : List String) :
    Except String (PartList × List String) :=
  match fuel with
  | 0 => .error "out of fuel"
  | fuel + 1 => do
    let (p, ts1) ← parse_part fuel ts
    match skipWs ts1 with
    | "::" :: ts2 => do
      let (ps, ts3) ← parse_fqn fuel ts2
      .ok (.cons p ps, ts3)
    | ts2 => .ok (.cons p .nil, ts2)

/-- Embedding of `FQNParser.parse_qualifiers`: parse an FQN, then decide
on the next token — none is an unclosed bracket, a comma continues, a
closing bracket stops without consuming, and on any other token the
Python `while True` loop simply runs the body again. -/
def parse_qualifiers (fuel : Nat) (ts : List String) :
    Except String (QualList × List String) :=
  match fuel with
  | 0 => .error "out of fuel"
  | fuel + 1 => do
    let (q, ts1) ← parse_fqn fuel ts
    let ts2 := skipWs ts1
    match ts2 with
    | [] => .error "Unclosed bracket"
    | "," :: ts3 => do
      let (qs, ts4) ← parse_qualifiers fuel ts3
      .ok (.cons q qs, ts4)
    | "]" :: ts3 => .ok (.cons q .nil, "]" :: ts3)
    | _ :: _ => do
      let (qs, ts4) ← parse_qualifiers fuel ts2
      .ok (.cons q qs, ts4)

end

/-- Embedding of `FQNParser.parse` as invoked by `FQN.__new__` on a
string: tokenize, parse one FQN, and reject trailing input.  The fuel
bound `2 * tokens + 2` dominates the number of parser-function entries
possible on the token list (established by the fuel lemmas below). -/
def FQNParser_parse (s : String) : Except String PartList :=
  let ts := tokenize s
  match parse_fqn (2 * ts.length + 2) ts with
  | .error e => .error e
  | .ok (fqn, rest) =>
    if 0 < rest.length then .error ("Unexpected token: " ++ rest.headD "")
    else .ok fqn

/-! ### Specification-side render structure for the round-trip proof

`Item` describes the surface syntax of a rendered FQN as a list of
tokens-to-be: name runs, brackets, `, ` separators, `::` separators and
`#` marks.  `itemsParts q` is the item decomposition of `fullname q`; the
round-trip proof shows that tokenizing the rendered characters of a
well-formed item list yields exactly its token list, and that the parser
inverts that token list. -/

inductive Item : Type where
  | nameI (s : String)
  | lbrack | rbrack | commaSp | dcolon | hash
deriving DecidableEq

/-- Characters an item contributes to the rendered string. -/
def itemChars : Item → List Char
  | .nameI s => s.data
  | .lbrack => ['[']
  | .rbrack => [']']
  | .commaSp => [',', ' ']
  | .dcolon => [':', ':']
  | .hash => ['#']

/-- Tokens an item contributes to the token list. -/
def itemTok : Item → List String
  | .nameI s => [s]
  | .lbrack => ["["]
  | .rbrack => ["]"]
  | .commaSp => [","]
  | .dcolon => ["::"]
  | .hash => ["#"]

/-- Rendered characters of an item list. -/
def itemsChars : List Item → List Char
  | [] => []
  | it :: rest => itemChars it ++ itemsChars rest

/-- Token list of an item list. -/
def itemsToks : List Item → List String
  | [] => []
  | it :: rest => itemTok it ++ itemsToks rest

mutual
/-- Item decomposition of a rendered part. -/
def itemsPart : NSPart → List Item
  | .mk name quals suffix =>
    [.nameI name]
    ++ (match quals with
        | .nil => []
        | .cons q rest => [.lbrack] ++ itemsQuals (.cons q rest) ++ [.rbrack])
    ++ (if suffix ≠ "" then [.hash, .nameI suffix] else [])

/-- Item decomposition of a rendered qualifier list, `, `-separated. -/
def itemsQuals : QualList → List Item
  | .nil => []
  | .cons q .nil => itemsParts q
  | .cons q rest => itemsParts q ++ [.commaSp] ++ itemsQuals rest

/-- Item decomposition of a rendered part list, `::`-separated. -/
def itemsParts : PartList → List Item
  | .nil => []
  | .cons p .nil => itemsPart p
  | .cons p rest => itemsPart p ++ [.dcolon] ++ itemsParts rest
end

/-- A name character per the FQN grammar: letters, digits, underscore,
dot (by character code: 65-90, 97-122, 48-57, 95, 46). -/
def plainChar (c : Char) : Bool :=
  (65 ≤ c.toNat && c.toNat ≤ 90) || (97 ≤ c.toNat && c.toNat ≤ 122) ||
  (48 ≤ c.toNat && c.toNat ≤ 57) || c.toNat = 95 || c.toNat = 46

/-- All characters of a string are name characters. -/
def plainStr (s : String) : Bool := s.data.all plainChar

/-- Whether an item list does not start with a name item (so a name run
just before it cannot merge with it during tokenization). -/
def headNotName : List Item → Bool
  | .nameI _ :: _ => false
  | _ => true

/-- Well-formed item list: names are nonempty with grammar characters
only, and no name item directly follows another (some separator token
always stands between two names in a rendered FQN). -/
def wfItems : List Item → Bool
  | [] => true
  | .nameI s :: rest =>
    (!s.isEmpty) && s.data.all plainChar && headNotName rest && wfItems rest
  | .lbrack :: rest => wfItems rest
  | .rbrack :: rest => wfItems rest
  | .commaSp :: rest => wfItems rest
  | .dcolon :: rest => wfItems rest
  | .hash :: rest => wfItems rest

/-- Token form of a part. -/
def tokP (p : NSPart) : List String := itemsToks (itemsPart p)

/-- Token form of a qualifier list. -/
def tokQ (qs : QualList) : List String := itemsToks (itemsQuals qs)

/-- Token form of a part list. -/
def tokF (ps : PartList) : List String := itemsToks (itemsParts ps)

mutual
/-- Well-formedness of a part for the round-trip theorem: nonempty plain
name, plain suffix, well-formed qualifiers. -/
def validPart : NSPart → Bool
  | .mk name quals suffix =>
    !name.isEmpty && plainStr name && plainStr suffix && validQuals quals

/-- Well-formedness of a qualifier list. -/
def validQuals : QualList → Bool
  | .nil => true
  | .cons q qs => validQual q && validQuals qs

/-- Well-formedness of one qualifier FQN: nonempty, its first part must
not render as the reserved root-module name `builtins` (otherwise
`human_name` drops or rewrites it and the round trip fails), and all its
parts well-formed. -/
def validQual : PartList → Bool
  | .nil => false
  | .cons p rest => !(p.str = "builtins") && validPart p && validParts rest

/-- Well-formedness of all parts of a list. -/
def validParts : PartList → Bool
  | .nil => true
  | .cons p ps => validPart p && validParts ps
end

/-- Well-formedness of a whole (top-level) FQN: nonempty with well-formed
parts.  The first part of a top-level FQN may render as `builtins`;
`fullname` never drops it, only qualifier rendering does. -/
def validTop : PartList → Bool
  | .nil => false
  | .cons p ps => validParts (.cons p ps)

mutual
/-- Fuel needed by `parse_part` on the token form of a part. -/
def needP : NSPart → Nat
  | .mk _ quals _ =>
    1 + (match quals with
         | .nil => 0
         | .cons q rest => needQ (.cons q rest))

/-- Fuel needed by `parse_qualifiers` on the token form of a qualifier
list. -/
def needQ : QualList → Nat
  | .nil => 1
  | .cons q .nil => 1 + needF q
  | .cons q rest => 1 + needF q + needQ rest

/-- Fuel needed by `parse_fqn` on the token form of a part list. -/
def needF : PartList → Nat
  | .nil => 1
  | .cons p .nil => 1 + needP p
  | .cons p rest => 1 + needP p + needF rest
end

/-- No token of the list is a whitespace token (true of every `tokenize`
output, and the side condition under which `skipWs` is the identity). -/
def noWs (ts : List String) : Bool := ts.all fun t => !strIsSpace t

/-- A concrete well-formed QN for the round-trip witness:
`mod::dict[i32, f64]::foo#0`. -/
def roundtripExample : PartList :=
  .cons (.mk "mod" .nil "")
    (.cons (.mk "dict"
      (.cons (.cons (.mk "i32" .nil "") .nil)
        (.cons (.cons (.mk "f64" .nil "") .nil) .nil)) "")
      (.cons (.mk "foo" .nil "0") .nil))

/-- The QN `foo[builtins::def[i32, i32]]` — a function-type qualifier of
the exact shape the compiler builds for `def(i32) -> i32`.  Its qualifier
renders through `human_name`, which rewrites the `builtins::def[...]`
form, so parsing the rendered string does not recover the QN. -/
def builtinsDefQN : PartList :=
  .cons (.mk "foo"
    (.cons
      (.cons (.mk "builtins" .nil "")
        (.cons (.mk "def"
          (.cons (.cons (.mk "i32" .nil "") .nil)
            (.cons (.cons (.mk "i32" .nil "") .nil) .nil)) "")
          .nil))
      .nil)
    "") .nil

/-! ## The aliasing behaviour of FQN.with_suffix, from spy/fqn.py

In Python, `NSPart` instances are mutable heap objects and `FQN.parts` is a
list of references to them.  `get_parts` appends the *same* `NSPart`
objects it receives, and `with_suffix` then assigns
`res.parts[-1].suffix = suffix`.  To reason about which objects change, the
heap is modelled explicitly: a store of `NSPartCell`s indexed by `Nat`, an
FQN value being a list of cell indices. -/

/-- One heap-allocated `NSPart` object.  Only the suffix field is ever
mutated by the code under study, so name and qualifiers are stored as plain
values. -/
structure NSPartCell where
  name : String
  qualifiers : QualList
  suffix : String

instance : Inhabited NSPartCell := ⟨⟨"", .nil, ""⟩⟩

/-- Embedding of `get_parts` on a list that contains only `NSPart`
objects: the result list contains the same objects (references). -/
def get_parts (refs : List Nat) : List Nat := refs

/-- Embedding of `FQN.with_suffix`: `res = FQN(self.parts)` builds a new
FQN whose parts list holds the same part objects, then
`res.parts[-1].suffix = suffix` mutates the last of those shared objects in
the store.  Returns the updated store and the new FQN.  (On an empty parts
list Python would raise `IndexError`; the store is returned unchanged.) -/
def with_suffix (heap : List NSPartCell) (self : List Nat) (sfx : String) :
    List NSPartCell × List Nat :=
  let res := get_parts self
  match res.getLast? with
  | some i => (heap.set i { heap.getD i default with suffix := sfx }, res)
  | none => (heap, res)

/-- Reads one `NSPart` value out of the store. -/
def derefPart (heap : List NSPartCell) (i : Nat) : NSPart :=
  let c := heap.getD i default
  .mk c.name c.qualifiers c.suffix

/-- Reads a whole FQN value out of the store. -/
def derefParts (heap : List NSPartCell) (refs : List Nat) : PartList :=
  match refs with
  | [] => .nil
  | i :: rest => .cons (derefPart heap i) (derefParts heap rest)

/-! ## Struct layout, from spy/vm/modules/unsafe/struct.py -/

namespace Unsafe

/-- The field types that appear in the layout claims. -/
inductive UnsafeType : Type where
  | i32 : UnsafeType
  | f64 : UnsafeType
  | bool : UnsafeType
deriving DecidableEq

/-- Modelled from the spec: `sizeof` lives in
`spy/vm/modules/unsafe/misc.py`, which is not among the available sources.
The specification fixes the sizes used by its layout example: the 32-bit
integer type has size 4, the 64-bit float type size 8, and bool size 1. -/
def sizeof : UnsafeType → Nat
  | .i32 => 4
  | .f64 => 8
  | .bool => 1

/-- Python bitwise complement on unbounded integers: `~x = -x - 1`. -/
def pyNot (x : Int) : Int := -x - 1

/-- Embedding of the loop body of `calc_layout`: walk the fields in
declared order; `offset = (offset + (field_size - 1)) & ~(field_size - 1)`;
record the offset; advance by the field size. -/
def calcLayoutAux : List (String × UnsafeType) → Int → List (String × Int) × Int
  | [], offset => ([], offset)
  | (field, w_type) :: rest, offset =>
    let field_size : Int := (sizeof w_type : Int)
    let offset2 := Int.land (offset + (field_size - 1)) (pyNot (field_size - 1))
    let (offsets, size) := calcLayoutAux rest (offset2 + field_size)
    ((field, offset2) :: offsets, size)

/-- Embedding of `calc_layout`: returns the offsets dictionary (as an
insertion-ordered association list) and the total size, with the running
offset starting at 0 and the final offset as the size. -/
def calc_layout (fields : List (String × UnsafeType)) : List (String × Int) × Int :=
  calcLayoutAux fields 0

/-- Specification-side layout: round the running offset up to the next
multiple of the field size with plain division, place the field, advance by
its size; total size is the final offset. -/
def layoutSpecAux : List (String × UnsafeType) → Nat → List (String × Nat) × Nat
  | [], offset => ([], offset)
  | (field, w_type) :: rest, offset =>
    let s := sizeof w_type
    let o := ((offset + s - 1) / s) * s
    let (offsets, size) := layoutSpecAux rest (o + s)
    ((field, o) :: offsets, size)

/-- Specification-side layout of a whole field list. -/
def layoutSpec (fields : List (String × UnsafeType)) : List (String × Nat) × Nat :=
  layoutSpecAux fields 0

end Unsafe

/-! ## Binary-operator dispatch, from spy/vm/modules/operator/binop.py -/

namespace Binop

/-- The registered implementation functions of binop.py, plus a shape for
implementations returned by user-defined operator overrides. -/
inductive Impl : Type where
  | i32_add | i32_sub | i32_mul | i32_div | i32_eq | i32_ne
  | i32_lt | i32_le | i32_gt | i32_ge
  | f64_add | f64_sub | f64_mul | f64_div | f64_eq | f64_ne
  | f64_lt | f64_le | f64_gt | f64_ge
  | str_add | str_mul | str_eq | str_ne
  | dynamic_add | dynamic_mul | dynamic_eq | dynamic_ne
  | dynamic_lt | dynamic_le | dynamic_gt | dynamic_ge
  | object_is | object_isnot
  | userImpl (name : String)
deriving DecidableEq

/-- The exact-pair registrations `MM.register(op, ltype, rtype, impl)` of
binop.py, in source order: the i32 block, the f64 block, the mixed i32/f64
block, and the str block. -/
def registrations : List (String × String × String × Impl) :=
  [("+",  "i32", "i32", .i32_add),
   ("-",  "i32", "i32", .i32_sub),
   ("*",  "i32", "i32", .i32_mul),
   ("/",  "i32", "i32", .i32_div),
   ("==", "i32", "i32", .i32_eq),
   ("!=", "i32", "i32", .i32_ne),
   ("<",  "i32", "i32", .i32_lt),
   ("<=", "i32", "i32", .i32_le),
   (">",  "i32", "i32", .i32_gt),
   (">=", "i32", "i32", .i32_ge),
   ("+",  "f64", "f64", .f64_add),
   ("-",  "f64", "f64", .f64_sub),
   ("*",  "f64", "f64", .f64_mul),
   ("/",  "f64", "f64", .f64_div),
   ("==", "f64", "f64", .f64_eq),
   ("!=", "f64", "f64", .f64_ne),
   ("<",  "f64", "f64", .f64_lt),
   ("<=", "f64", "f64", .f64_le),
   (">",  "f64", "f64", .f64_gt),
   (">=", "f64", "f64", .f64_ge),
   ("+",  "f64", "i32", .f64_add),
   ("+",  "i32", "f64", .f64_add),
   ("-",  "f64", "i32", .f64_sub),
   ("-",  "i32", "f64", .f64_sub),
   ("*",  "f64", "i32", .f64_mul),
   ("*",  "i32", "f64", .f64_mul),
   ("/",  "f64", "i32", .f64_div),
   ("/",  "i32", "f64", .f64_div),
   ("==", "f64", "i32", .f64_eq),
   ("==", "i32", "f64", .f64_eq),
   ("!=", "f64", "i32", .f64_ne),
   ("!=", "i32", "f64", .f64_ne),
   ("<",  "f64", "i32", .f64_lt),
   ("<",  "i32", "f64", .f64_lt),
   ("<=", "f64", "i32", .f64_le),
   ("<=", "i32", "f64", .f64_le),
   (">",  "f64", "i32", .f64_gt),
   (">",  "i32", "f64", .f64_gt),
   (">=", "f64", "i32", .f64_ge),
   (">=", "i32", "f64", .f64_ge),
   ("+",  "str", "str", .str_add),
   ("*",  "str", "i32", .str_mul),
   ("==", "str", "str", .str_eq),
   ("!=", "str", "str", .str_ne)]

/-- The one-sided wildcard registrations
`MM.register_partial(op, 'dynamic', impl)` of binop.py. -/
def wildcardRegs : List (String × Impl) :=
  [("+",  .dynamic_add),
   ("*",  .dynamic_mul),
   ("==", .dynamic_eq),
   ("!=", .dynamic_ne),
   ("<",  .dynamic_lt),
   ("<=", .dynamic_le),
   (">",  .dynamic_gt),
   (">=", .dynamic_ge)]

/-- Exact-pair match in the dispatch table. -/
def lookupExact (op lname rname : String) : Option Impl :=
  (registrations.find? fun e => e.1 = op && e.2.1 = lname && e.2.2.1 = rname).map
    (fun e => e.2.2.2)

/-- Modelled from the spec: the interior of `MultiMethodTable.lookup`
(multimethod.py is not among the available sources).  Per the
specification, table lookup tries the exact pair first and then the
one-sided wildcard (dynamic) key; no match yields the absent OpImpl,
modelled as `none`. -/
def MM_lookup (op lname rname : String) : Option Impl :=
  match lookupExact op lname rname with
  | some impl => some impl
  | none =>
    if lname = "dynamic" || rname = "dynamic" then
      (wildcardRegs.find? fun e => e.1 = op).map (fun e => e.2)
    else none

/-- The data of a static operand type that `w_EQ`/`w_NE` consult: its
dispatch-table key (name), whether its pyclass overrides `op_EQ`/`op_NE`
(`has_meth_overriden`), and the OpImpl such an override returns. -/
structure TypeInfo where
  name : String
  hasOvrEQ : Bool
  ovrEQ : Impl
  hasOvrNE : Bool
  ovrNE : Impl
deriving DecidableEq

/-- Embedding of `w_EQ`.  `refEq` is the oracle for
`can_use_reference_eq` (its ingredients `vm.union_type` and
`is_reference_type` are not among the available sources; per the
specification it holds exactly when the nearest common ancestor is neither
the root type nor absent and is a reference type).  `tcOk` stands for
`typecheck_opimpl`, which raises unless the OpImpl typechecks against the
two operands.  The result is the chosen OpImpl, `none` meaning the absent
OpImpl returned by a failed table lookup. -/
def w_EQ (refEq : TypeInfo → TypeInfo → Bool) (tcOk : Impl → Bool)
    (l r : TypeInfo) : Except String (Option Impl) :=
  if l.hasOvrEQ then
    if tcOk l.ovrEQ then .ok (some l.ovrEQ)
    else .error ("cannot do `" ++ l.name ++ "` == `" ++ r.name ++ "`")
  else if refEq l r then
    if tcOk .object_is then .ok (some .object_is)
    else .error ("cannot do `" ++ l.name ++ "` == `" ++ r.name ++ "`")
  else .ok (MM_lookup "==" l.name r.name)

/-- Embedding of `w_NE`, the `!=` twin of `w_EQ`. -/
def w_NE (refEq : TypeInfo → TypeInfo → Bool) (tcOk : Impl → Bool)
    (l r : TypeInfo) : Except String (Option Impl) :=
  if l.hasOvrNE then
    if tcOk l.ovrNE then .ok (some l.ovrNE)
    else .error ("cannot do `" ++ l.name ++ "` != `" ++ r.name ++ "`")
  else if refEq l r then
    if tcOk .object_isnot then .ok (some .object_isnot)
    else .error ("cannot do `" ++ l.name ++ "` != `" ++ r.name ++ "`")
  else .ok (MM_lookup "!=" l.name r.name)

/-- Embedding of `w_ADD`/`w_SUB`/... : for the operators without a
dedicated blue function the resolution is a direct table lookup. -/
def resolveMM (op : String) (lname rname : String) : Option Impl :=
  MM_lookup op lname rname

/-- Modelled from the spec: the `TypeInfo` of the builtin 32-bit integer
type.  Its pyclass declares no `==`/`!=` override (the specification
routes all numeric comparisons through the table). -/
def i32Info : TypeInfo := ⟨"i32", false, .userImpl "", false, .userImpl ""⟩

/-- Modelled from the spec: the `TypeInfo` of the builtin 64-bit float
type; no `==`/`!=` override. -/
def f64Info : TypeInfo := ⟨"f64", false, .userImpl "", false, .userImpl ""⟩

/-- Modelled from the spec: `can_use_reference_eq` on two numeric builtin
types is false, because their only common ancestor is the root type
`object`. -/
def numRefEq : TypeInfo → TypeInfo → Bool := fun _ _ => false

end Binop

/-! ## The bytecode compiler, from spy/irgen/codegen.py and
spy/vm/codeobject.py -/

namespace Gen

/-- The static types the code generator compares against
(`vm.builtins.w_i32`, `w_str`, `w_void`); identity comparison on interned
types is equality of this inductive. -/
inductive VMType : Type where
  | i32 | f64 | bool | str | void | dynamic
  | other (nm : String)
deriving DecidableEq

/-- The `name` attribute of a type, used in error messages. -/
def VMType.tname : VMType → String
  | .i32 => "i32"
  | .f64 => "f64"
  | .bool => "bool"
  | .str => "str"
  | .void => "void"
  | .dynamic => "dynamic"
  | .other nm => nm

/-- One opcode argument: branch-target indices, name strings, the ellipsis
placeholder, or a wrapped constant object. -/
inductive Arg : Type where
  | num (n : Nat)
  | str (s : String)
  | ell
  | obj (o : String)
deriving DecidableEq

/-- Embedding of class `OpCode`: a name from the fixed vocabulary and an
argument tuple. -/
structure OpCode where
  name : String
  args : List Arg
deriving DecidableEq

/-- The closed opcode vocabulary `ALL_OPCODES` of codeobject.py.  Note
that `call_primitive`, emitted by the str+str branch of `do_eval_BinOp`,
is not in the vocabulary, so that branch raises `ValueError` inside
`OpCode.__init__`. -/
def ALL_OPCODES : List String :=
  ["return", "abort", "mark_if_then", "mark_if_then_else", "mark_while",
   "load_const", "load_local", "load_global", "store_local", "store_global",
   "call_global", "i32_add", "i32_sub", "i32_mul", "i32_eq", "i32_neq",
   "i32_lt", "i32_lte", "i32_gt", "i32_gte", "pop_and_discard", "br",
   "br_if_not"]

/-- Embedding of `OpCode.is_br`, i.e. `self.name.startswith('br')`,
expressed as a direct check of the first two characters. -/
def OpCode.is_br (op : OpCode) : Bool :=
  match op.name.data with
  | 'b' :: 'r' :: _ => true
  | _ => false

/-- The exceptions the code generator can raise. -/
inductive Err : Type where
  | valueError (msg : String)
  | notImplementedError (msg : String)
  | spyCompileError (msg : String)
  | assertionError (msg : String)
deriving DecidableEq

/-- Embedding of `OpCode.__init__`: raises `ValueError` on a name outside
the vocabulary. -/
def mkOpCode (nm : String) (args : List Arg) : Except Err OpCode :=
  if ALL_OPCODES.contains nm then .ok ⟨nm, args⟩
  else .error (.valueError ("Invalid opcode: " ++ nm))

/-- Embedding of `CodeGen.emit`: appends an opcode to the body and returns
its label (the index it was placed at) together with the new body.  The
Python method returns the op object itself for later `set_args` calls; the
label identifies it here. -/
def emit (body : List OpCode) (nm : String) (args : List Arg) :
    Except Err (Nat × List OpCode) := do
  let op ← mkOpCode nm args
  .ok (body.length, body ++ [op])

/-- Embedding of `OpCode.set_args`, addressed through the body by label:
raises `ValueError` unless the current argument tuple is exactly the
ellipsis placeholder. -/
def set_args (body : List OpCode) (i : Nat) (args : List Arg) :
    Except Err (List OpCode) :=
  match body.get? i with
  | some op =>
    if op.args = [.ell] then .ok (body.set i ⟨op.name, args⟩)
    else .error (.valueError "Cannot set args on a fully constructed op")
  | none => .error (.assertionError "set_args: no such opcode")

/-- The expression forms of spy.ast that `CodeGen` lowers.  A constant
carries an identifying payload string. -/
inductive Expr : Type where
  | constant (c : String)
  | name (id : String)
  | binop (op : String) (l r : Expr)
  | cmpop (op : String) (l r : Expr)
  | call (fn : Expr) (args : List Expr)

/-- The statement forms of spy.ast that `CodeGen` lowers. -/
inductive Stmt : Type where
  | ret (e : Expr)
  | stmtExpr (e : Expr)
  | vardef (nm : String) (e : Expr)
  | assign (target : String) (e : Expr)
  | ifStmt (test : Expr) (thenBody : List Stmt) (elseBody : List Stmt)
  | whileStmt (test : Expr) (body : List Stmt)

/-- Scope classification of a resolved symbol relative to the function
being compiled: its own scope, the module-global scope, or anything else
(non-local). -/
inductive SKind : Type where
  | loc | glob | outer
deriving DecidableEq

/-- What `self.scope.lookup` returns per name: the scope classification
and whether the symbol qualifier is `const`. -/
structure Sym where
  kind : SKind
  isConst : Bool

/-- The oracles `CodeGen` consumes: the symbol table, the static-type
query `t.get_expr_type`, the constant-wrapping query `t.get_w_const`
(keyed by the constant payload), and whether the declared return type is
the unit (void) type. -/
structure Ctx where
  scope : String → Option Sym
  etype : Expr → VMType
  wconst : String → String
  restypeVoid : Bool

/-- Embedding of `CodeGen.is_const`: constants are const; a name is const
when its symbol qualifier is `const` (asserting the symbol exists);
everything else is not. -/
def is_const (ctx : Ctx) : Expr → Except Err Bool
  | .constant _ => .ok true
  | .name id =>
    match ctx.scope id with
    | none => .error (.assertionError "is_const: sym is None")
    | some sym => .ok sym.isConst
  | _ => .ok false

mutual

/-- Embedding of `CodeGen.eval_expr` and its `do_eval_*` methods. -/
def eval_expr (ctx : Ctx) (body : List OpCode) : Expr → Except Err (List OpCode)
  | .constant c => do
    let (_, b) ← emit body "load_const" [.obj (ctx.wconst c)]
    .ok b
  | .name id =>
    match ctx.scope id with
    | none => .error (.assertionError "do_eval_Name: sym is None")
    | some sym =>
      match sym.kind with
      | .loc => do
        let (_, b) ← emit body "load_local" [.str id]
        .ok b
      | .glob => do
        let (_, b) ← emit body "load_global" [.str id]
        .ok b
      | .outer => .error (.assertionError "XXX todo")
  | .binop op l r => do
    let w_ltype := ctx.etype l
    let w_rtype := ctx.etype r
    if w_ltype = .i32 && w_rtype = .i32 then do
      let b1 ← eval_expr ctx body l
      let b2 ← eval_expr ctx b1 r
      if op = "+" then do
        let (_, b3) ← emit b2 "i32_add" []
        .ok b3
      else if op = "*" then do
        let (_, b3) ← emit b2 "i32_mul" []
        .ok b3
      else
        .error (.notImplementedError
          (op ++ " op between " ++ w_ltype.tname ++ " and " ++ w_rtype.tname))
    else if w_ltype = .str && w_rtype = .str && op = "+" then do
      let b1 ← eval_expr ctx body l
      let b2 ← eval_expr ctx b1 r
      let (_, b3) ← emit b2 "call_primitive" [.str "str_add"]
      .ok b3
    else
      .error (.notImplementedError
        (op ++ " op between " ++ w_ltype.tname ++ " and " ++ w_rtype.tname))
  | .cmpop op l r => do
    let w_ltype := ctx.etype l
    let w_rtype := ctx.etype r
    if w_ltype = .i32 && w_rtype = .i32 then do
      let b1 ← eval_expr ctx body l
      let b2 ← eval_expr ctx b1 r
      if op = "==" then do
        let (_, b3) ← emit b2 "i32_eq" []
        .ok b3
      else if op = "!=" then do
        let (_, b3) ← emit b2 "i32_neq" []
        .ok b3
      else if op = "<" then do
        let (_, b3) ← emit b2 "i32_lt" []
        .ok b3
      else if op = "<=" then do
        let (_, b3) ← emit b2 "i32_lte" []
        .ok b3
      else if op = ">" then do
        let (_, b3) ← emit b2 "i32_gt" []
        .ok b3
      else if op = ">=" then do
        let (_, b3) ← emit b2 "i32_gte" []
        .ok b3
      else
        .error (.notImplementedError
          (op ++ " op between " ++ w_ltype.tname ++ " and " ++ w_rtype.tname))
    else
      .error (.notImplementedError
        (op ++ " op between " ++ w_ltype.tname ++ " and " ++ w_rtype.tname))
  | .call fn args => do
    let isc ← is_const ctx fn
    if !isc then .error (.spyCompileError "indirect calls not supported")
    else
      match fn with
      | .name funcname => do
        let b ← eval_expr_list ctx body args
        let (_, b2) ← emit b "call_global" [.str funcname, .num args.length]
        .ok b2
      | _ => .error (.assertionError "do_eval_Call: callee is not a Name")

/-- Evaluates a list of argument expressions in order. -/
def eval_expr_list (ctx : Ctx) (body : List OpCode) :
    List Expr → Except Err (List OpCode)
  | [] => .ok body
  | e :: rest => do
    let b ← eval_expr ctx body e
    eval_expr_list ctx b rest

/-- Embedding of `CodeGen.exec_stmt` and its `do_exec_*` methods,
including the backpatching of `br_if_not`, `br` and the structural marker
opcodes. -/
def exec_stmt (ctx : Ctx) (body : List OpCode) : Stmt → Except Err (List OpCode)
  | .ret e => do
    let b ← eval_expr ctx body e
    let (_, b2) ← emit b "return" []
    .ok b2
  | .stmtExpr e => do
    let b ← eval_expr ctx body e
    let (_, b2) ← emit b "pop_and_discard" []
    .ok b2
  | .vardef nm e =>
    match ctx.scope nm with
    | some sym =>
      if sym.kind = .loc then do
        let b ← eval_expr ctx body e
        let (_, b2) ← emit b "store_local" [.str nm]
        .ok b2
      else .error (.assertionError "do_exec_VarDef: var not in local scope")
    | none => .error (.assertionError "do_exec_VarDef: var not in local scope")
  | .assign target e =>
    match ctx.scope target with
    | none => .error (.assertionError "do_exec_Assign: no symbol")
    | some sym => do
      let b ← eval_expr ctx body e
      match sym.kind with
      | .loc => do
        let (_, b2) ← emit b "store_local" [.str target]
        .ok b2
      | .glob => do
        let (_, b2) ← emit b "store_global" [.str target]
        .ok b2
      | .outer => .error (.assertionError "TODO")
  | .ifStmt test thenBody elseBody =>
    if elseBody.isEmpty then do
      let (markIdx, b0) ← emit body "mark_if_then" [.ell]
      let b1 ← eval_expr ctx b0 test
      let (ifIdx, b2) ← emit b1 "br_if_not" [.ell]
      let b3 ← exec_stmt_list ctx b2 thenBody
      let endL := b3.length
      let b4 ← set_args b3 ifIdx [.num endL]
      let b5 ← set_args b4 markIdx [.num ifIdx, .num endL]
      .ok b5
    else do
      let (markIdx, b0) ← emit body "mark_if_then_else" [.ell]
      let b1 ← eval_expr ctx b0 test
      let (ifIdx, b2) ← emit b1 "br_if_not" [.ell]
      let b3 ← exec_stmt_list ctx b2 thenBody
      let (brIdx, b4) ← emit b3 "br" [.ell]
      let elseL := b4.length
      let b5 ← exec_stmt_list ctx b4 elseBody
      let endL := b5.length
      let b6 ← set_args b5 ifIdx [.num elseL]
      let b7 ← set_args b6 brIdx [.num endL]
      let b8 ← set_args b7 markIdx [.num ifIdx, .num elseL, .num endL]
      .ok b8
  | .whileStmt test loopBody => do
    let (markIdx, b0) ← emit body "mark_while" [.ell]
    let START := b0.length
    let b1 ← eval_expr ctx b0 test
    let (ifIdx, b2) ← emit b1 "br_if_not" [.ell]
    let b3 ← exec_stmt_list ctx b2 loopBody
    let (loopIdx, b4) ← emit b3 "br" [.num START]
    let endL := b4.length
    let b5 ← set_args b4 ifIdx [.num endL]
    let b6 ← set_args b5 markIdx [.num ifIdx, .num loopIdx]
    .ok b6

/-- Executes a list of statements in order. -/
def exec_stmt_list (ctx : Ctx) (body : List OpCode) :
    List Stmt → Except Err (List OpCode)
  | [] => .ok body
  | s :: rest => do
    let b ← exec_stmt ctx body s
    exec_stmt_list ctx b rest

end

/-- A branch opcode is fully resolved for a body of length `len`: its
argument tuple is one concrete target index in `[0, len]`. -/
def brOk (op : OpCode) (len : Nat) : Prop :=
  op.is_br = true → ∃ n, op.args = [.num n] ∧ n ≤ len

/-- Every branch opcode of the body is fully resolved with a target in
`[0, len(body)]`. -/
def BrInv (body : List OpCode) : Prop :=
  ∀ op ∈ body, brOk op body.length

/-- The compile step turned `b` into `b'` by appending opcodes whose
branch members are fully resolved within `b'` (earlier opcodes are
untouched). -/
def extOk (b b' : List OpCode) : Prop :=
  ∃ d, b' = b ++ d ∧ ∀ op ∈ d, brOk op b'.length

/-- Embedding of `CodeGen.make_w_code`: compile every statement of the
function body, then the epilogue — an implicit `return None` when the
declared return type is void, otherwise the runtime `abort` trap. -/
def make_w_code (ctx : Ctx) (stmts : List Stmt) : Except Err (List OpCode) := do
  let b ← exec_stmt_list ctx [] stmts
  if ctx.restypeVoid then do
    let (_, b1) ← emit b "load_const" [.obj "w_None"]
    let (_, b2) ← emit b1 "return" []
    .ok b2
  else do
    let (_, b1) ← emit b "abort"
      [.str "reached the end of the function without a `return`"]
    .ok b1

end Gen

/-! ## Theorems -/

/-! ### Struct layout (claims C9 and C10) -/

/-- Clearing the low `k` bits of `m` truncates it down to a multiple of
`2 ^ k`. -/
theorem ldiff_two_pow_sub_one (m k : ℕ) :
    Nat.ldiff m (2 ^ k - 1) = 2 ^ k * (m / 2 ^ k) := by
  apply Nat.eq_of_testBit_eq
  intro i
  rw [Nat.testBit_ldiff, Nat.testBit_two_pow_sub_one]
  have h2 : 2 ^ k * (m / 2 ^ k) = (m >>> k) <<< k := by
    rw [Nat.shiftRight_eq_div_pow, Nat.shiftLeft_eq]
    ring
  rw [h2, Nat.testBit_shiftLeft, Nat.testBit_shiftRight]
  by_cases h : i < k
  · simp [h, Nat.not_le.mpr h]
  · have hik : k + (i - k) = i := by omega
    simp [h, hik, Nat.not_lt.mp h, ge_iff_le, Nat.le_of_not_lt]

/-- Bitwise AND of a natural number with `-(2 ^ k)` (all bits from `k` up)
in two's complement. -/
theorem int_land_negSucc_two_pow (m k : ℕ) :
    Int.land (m : ℤ) (Int.negSucc (2 ^ k - 1)) =
      ((2 ^ k * (m / 2 ^ k) : ℕ) : ℤ) := by
  have h : Int.land (m : ℤ) (Int.negSucc (2 ^ k - 1)) =
      ((Nat.ldiff m (2 ^ k - 1) : ℕ) : ℤ) := rfl
  rw [h, ldiff_two_pow_sub_one]

/-- One alignment step of `calc_layout` equals rounding up to the next
multiple, for a power-of-two size. -/
theorem align_step (o s k : ℕ) (hs : s = 2 ^ k) :
    Int.land ((o : ℤ) + ((s : ℤ) - 1)) (Unsafe.pyNot ((s : ℤ) - 1)) =
      (((o + s - 1) / s * s : ℕ) : ℤ) := by
  have h1 : (0 : ℕ) < s := by subst hs; positivity
  have h2 : (o : ℤ) + ((s : ℤ) - 1) = ((o + s - 1 : ℕ) : ℤ) := by omega
  have h3 : Unsafe.pyNot ((s : ℤ) - 1) = Int.negSucc (s - 1) := by
    simp only [Unsafe.pyNot, Int.negSucc_eq]
    omega
  rw [h2, h3, hs]
  rw [show (2 ^ k : ℕ) - 1 = 2 ^ k - 1 from rfl]
  rw [int_land_negSucc_two_pow (o + 2 ^ k - 1) k]
  congr 1
  rw [Nat.mul_comm]

/-- The faithful embedding of `calc_layout` agrees with the
specification-side rounding layout at every starting offset, provided all
field sizes are powers of two. -/
theorem calcLayoutAux_spec (fields : List (String × Unsafe.UnsafeType)) (o : ℕ)
    (h : ∀ fw ∈ fields, ∃ k, Unsafe.sizeof fw.2 = 2 ^ k) :
    Unsafe.calcLayoutAux fields (o : ℤ) =
      (((Unsafe.layoutSpecAux fields o).1.map fun fo => (fo.1, (fo.2 : ℤ))),
        ((Unsafe.layoutSpecAux fields o).2 : ℤ)) := by
  induction fields generalizing o with
  | nil => simp [Unsafe.calcLayoutAux, Unsafe.layoutSpecAux]
  | cons fw rest ih =>
    obtain ⟨f, w⟩ := fw
    obtain ⟨k, hk⟩ := h (f, w) (by simp)
    simp only at hk
    have hstep := align_step o (Unsafe.sizeof w) k hk
    have hrest : ∀ fw ∈ rest, ∃ k, Unsafe.sizeof fw.2 = 2 ^ k := by
      intro fw hmem
      exact h fw (by simp [hmem])
    simp only [Unsafe.calcLayoutAux, Unsafe.layoutSpecAux]
    rw [hstep]
    have hcast : ((((o + Unsafe.sizeof w - 1) / Unsafe.sizeof w * Unsafe.sizeof w : ℕ)) : ℤ) +
        (Unsafe.sizeof w : ℤ) =
        (((o + Unsafe.sizeof w - 1) / Unsafe.sizeof w * Unsafe.sizeof w + Unsafe.sizeof w : ℕ) : ℤ) := by
      push_cast
      ring
    rw [hcast, ih _ hrest]
    simp

/-- C9: under the power-of-two precondition the layout computed by
`calc_layout` walks the fields in order, rounds the running offset up to
the next multiple of the field size, places the field and advances by its
size, with the total size the final offset; in particular
`(a: i32, b: bool, c: f64)` yields offsets 0, 4, 8 and total size 16. -/
theorem struct_layout_pow2 :
    (∀ fields, (∀ fw ∈ fields, ∃ k, Unsafe.sizeof fw.2 = 2 ^ k) →
      Unsafe.calc_layout fields =
        (((Unsafe.layoutSpec fields).1.map fun fo => (fo.1, (fo.2 : ℤ))),
          ((Unsafe.layoutSpec fields).2 : ℤ))) ∧
    Unsafe.calc_layout [("a", .i32), ("b", .bool), ("c", .f64)] =
      ([("a", 0), ("b", 4), ("c", 8)], 16) := by
  constructor
  · intro fields h
    exact calcLayoutAux_spec fields 0 h
  · have h := calcLayoutAux_spec [("a", .i32), ("b", .bool), ("c", .f64)] 0
      (by
        intro fw hmem
        fin_cases hmem
        · exact ⟨2, by decide⟩
        · exact ⟨0, by decide⟩
        · exact ⟨3, by decide⟩)
    rw [show Unsafe.calc_layout [("a", .i32), ("b", .bool), ("c", .f64)] =
          Unsafe.calcLayoutAux [("a", .i32), ("b", .bool), ("c", .f64)] ((0 : ℕ) : ℤ) from rfl]
    rw [h]
    rfl

/-- Witness for C9 at a concrete one-field struct. -/
theorem struct_layout_pow2_witness :
    Unsafe.calc_layout [("x", .f64)] = ([("x", (0 : ℤ))], 8) := by
  have h := struct_layout_pow2.1 [("x", .f64)]
    (by
      intro fw hmem
      fin_cases hmem
      exact ⟨3, by decide⟩)
  rw [h]
  rfl

/-- C10: the layout of an empty field list succeeds with an empty offset
map and total size 0. -/
theorem layout_empty_fields : Unsafe.calc_layout [] = ([], 0) := rfl

/-! ### Operator resolution (claims C3 and C4) -/

/-- C4: for every operator in the ten-operator family, a mixed f64/i32
pair (either order) resolves to the very implementation registered for the
homogeneous f64 pair — the float implementation; `+` on i32/i32 resolves
to the integer add; and the mixed i32/f64 block is the only implicit
promotion: any mixed-type exact registration whose implementation
coincides with a homogeneous implementation of one of its sides is an
i32/f64 pair mapped to the float implementation. -/
theorem numeric_promotion_resolution :
    (∀ op ∈ (["+", "-", "*", "/", "==", "!=", "<", "<=", ">", ">="] : List String),
      Binop.resolveMM op "f64" "i32" = Binop.resolveMM op "f64" "f64" ∧
      Binop.resolveMM op "i32" "f64" = Binop.resolveMM op "f64" "f64" ∧
      (Binop.resolveMM op "f64" "f64").isSome = true) ∧
    (∀ tc : Binop.Impl → Bool,
      Binop.w_EQ Binop.numRefEq tc Binop.f64Info Binop.i32Info = .ok (some .f64_eq) ∧
      Binop.w_EQ Binop.numRefEq tc Binop.i32Info Binop.f64Info = .ok (some .f64_eq) ∧
      Binop.w_NE Binop.numRefEq tc Binop.f64Info Binop.i32Info = .ok (some .f64_ne) ∧
      Binop.w_NE Binop.numRefEq tc Binop.i32Info Binop.f64Info = .ok (some .f64_ne)) ∧
    Binop.resolveMM "+" "f64" "i32" = some .f64_add ∧
    Binop.resolveMM "+" "i32" "f64" = some .f64_add ∧
    Binop.resolveMM "+" "i32" "i32" = some .i32_add ∧
    (∀ e ∈ Binop.registrations, e.2.1 ≠ e.2.2.1 →
      (Binop.lookupExact e.1 e.2.1 e.2.1 = some e.2.2.2 ∨
       Binop.lookupExact e.1 e.2.2.1 e.2.2.1 = some e.2.2.2) →
      ((e.2.1 = "f64" ∧ e.2.2.1 = "i32") ∨ (e.2.1 = "i32" ∧ e.2.2.1 = "f64")) ∧
      Binop.lookupExact e.1 "f64" "f64" = some e.2.2.2) := by
  exact ⟨by decide, fun tc => ⟨rfl, rfl, rfl, rfl⟩, by decide, by decide, by decide, by decide⟩

/-- Witness for C4 at the `+` operator and a concrete typecheck oracle. -/
theorem numeric_promotion_resolution_witness :
    Binop.resolveMM "+" "f64" "i32" = Binop.resolveMM "+" "f64" "f64" ∧
    Binop.w_EQ Binop.numRefEq (fun _ => true) Binop.f64Info Binop.i32Info =
      .ok (some .f64_eq) :=
  ⟨(numeric_promotion_resolution.1 "+" (by decide)).1,
   (numeric_promotion_resolution.2.1 (fun _ => true)).1⟩

/-- C3 is false as stated: take a left type `A` declaring no `op_EQ`
override and a right type `B` declaring one, with no exact pair
registered for `(==, A, B)` and reference equality unavailable.  The
claim says lookup delegates to an override declared by either operand
type when no exact pair matches; the code consults only the left type, so
it falls through to the (empty) table and returns the absent OpImpl
instead of the right-side override. -/
theorem eq_lookup_order_cex :
    Binop.lookupExact "==" "A" "B" = none ∧
    (⟨"B", true, .userImpl "B.op_EQ", false, .userImpl ""⟩ : Binop.TypeInfo).hasOvrEQ = true ∧
    Binop.w_EQ (fun _ _ => false) (fun _ => true)
      ⟨"A", false, .userImpl "", false, .userImpl ""⟩
      ⟨"B", true, .userImpl "B.op_EQ", false, .userImpl ""⟩ = .ok none ∧
    (Except.ok none : Except String (Option Binop.Impl)) ≠
      .ok (some (.userImpl "B.op_EQ")) :=
  ⟨by decide, by decide, by decide, by decide⟩

/-- C3 amended: for `==` and `!=` the lookup first delegates to an
override declared by the LEFT operand type alone, re-typechecking its
result, and this happens regardless of any exact pair in the table; only
when the left type declares no override is reference identity tried, and
only then the table (exact pair first, then wildcard).  The override
state of the right operand type is never consulted. -/
theorem eq_lookup_order :
    (∀ (refEq : Binop.TypeInfo → Binop.TypeInfo → Bool) (tc : Binop.Impl → Bool)
       (l r : Binop.TypeInfo),
      (l.hasOvrEQ = true →
        Binop.w_EQ refEq tc l r =
          (if tc l.ovrEQ then .ok (some l.ovrEQ)
           else .error ("cannot do `" ++ l.name ++ "` == `" ++ r.name ++ "`"))) ∧
      (l.hasOvrEQ = false → refEq l r = true →
        Binop.w_EQ refEq tc l r =
          (if tc .object_is then .ok (some .object_is)
           else .error ("cannot do `" ++ l.name ++ "` == `" ++ r.name ++ "`"))) ∧
      (l.hasOvrEQ = false → refEq l r = false →
        Binop.w_EQ refEq tc l r = .ok (Binop.MM_lookup "==" l.name r.name)) ∧
      (l.hasOvrNE = true →
        Binop.w_NE refEq tc l r =
          (if tc l.ovrNE then .ok (some l.ovrNE)
           else .error ("cannot do `" ++ l.name ++ "` != `" ++ r.name ++ "`"))) ∧
      (l.hasOvrNE = false → refEq l r = true →
        Binop.w_NE refEq tc l r =
          (if tc .object_isnot then .ok (some .object_isnot)
           else .error ("cannot do `" ++ l.name ++ "` != `" ++ r.name ++ "`"))) ∧
      (l.hasOvrNE = false → refEq l r = false →
        Binop.w_NE refEq tc l r = .ok (Binop.MM_lookup "!=" l.name r.name))) ∧
    (∀ (refEq : Binop.TypeInfo → Binop.TypeInfo → Bool) (tc : Binop.Impl → Bool)
       (l r r' : Binop.TypeInfo),
      r.name = r'.name → refEq l r = refEq l r' →
      Binop.w_EQ refEq tc l r = Binop.w_EQ refEq tc l r' ∧
      Binop.w_NE refEq tc l r = Binop.w_NE refEq tc l r') := by
  constructor
  · intro refEq tc l r
    refine ⟨?_, ?_, ?_, ?_, ?_, ?_⟩ <;> intro h1 <;> try intro h2
    all_goals simp [Binop.w_EQ, Binop.w_NE, h1]
    all_goals simp [h2]
  · intro refEq tc l r r' hn hr
    constructor <;> simp [Binop.w_EQ, Binop.w_NE, hn, hr]

/-! ### with_suffix aliasing (claim C2) -/

/-- C2 evaluated at the failing input: build `q = a::b` from two heap
cells and call `with_suffix q "1"`.  Because `get_parts` re-uses the same
part objects and the method assigns through them, the receiver is mutated
along with the result: afterwards `q` renders `a::b#1`, not `a::b`.  The
claim says the receiver is left unchanged. -/
theorem with_suffix_mutates_receiver :
    (fullname (derefParts [⟨"a", .nil, ""⟩, ⟨"b", .nil, ""⟩] [0, 1]) = "a::b") ∧
    (fullname (derefParts
        (with_suffix [⟨"a", .nil, ""⟩, ⟨"b", .nil, ""⟩] [0, 1] "1").1
        (with_suffix [⟨"a", .nil, ""⟩, ⟨"b", .nil, ""⟩] [0, 1] "1").2) = "a::b#1") ∧
    (fullname (derefParts
        (with_suffix [⟨"a", .nil, ""⟩, ⟨"b", .nil, ""⟩] [0, 1] "1").1 [0, 1]) = "a::b#1") ∧
    fullname (derefParts
        (with_suffix [⟨"a", .nil, ""⟩, ⟨"b", .nil, ""⟩] [0, 1] "1").1 [0, 1]) ≠
      fullname (derefParts [⟨"a", .nil, ""⟩, ⟨"b", .nil, ""⟩] [0, 1]) := by
  refine ⟨rfl, rfl, rfl, ?_⟩
  intro h
  simp only [with_suffix, get_parts, derefParts, derefPart, fullname] at h
  exact absurd h (by decide)

/-! ### Mangling (claim C7) -/

mutual
/-- The source mangling of one part equals the specification-side rule. -/
theorem cName_eq_spec : ∀ p : NSPart, NSPart.cName p = mangleSpecPart p
  | .mk name quals suffix => by
    simp only [NSPart.cName, mangleSpecPart, dotToUnder]
    rw [cPlainQuals_eq_spec quals]

/-- The source mangling of a qualifier list equals the specification-side
rule. -/
theorem cPlainQuals_eq_spec : ∀ qs : QualList, cPlainQuals qs = mangleSpecQuals qs
  | .nil => rfl
  | .cons q rest => by
    simp only [cPlainQuals, mangleSpecQuals]
    rw [cNameList_eq_spec q, cPlainQuals_eq_spec rest]

/-- The source mangling of a part list equals the specification-side
rule. -/
theorem cNameList_eq_spec : ∀ ps : PartList, cNameList ps = mangleSpecParts ps
  | .nil => rfl
  | .cons p rest => by
    simp only [cNameList, mangleSpecParts]
    rw [cName_eq_spec p, cNameList_eq_spec rest]
end

/-- C7: the mangled identifier of every QN is `spy_` followed by the
segment manglings joined by `$`, each segment mangling its name with `.`
replaced by `_`, appending `__` plus the qualifiers own plain manglings
joined by `_` when qualifiers exist, and appending a suffix as `$suffix`;
in particular `mod::dict[i32, f64]::foo#0` mangles to
`spy_mod$dict__i32_f64$foo$0`. -/
theorem mangled_identifier_form :
    (∀ parts : PartList, c_name parts = mangleSpec parts) ∧
    c_name (.cons (.mk "mod" .nil "")
      (.cons (.mk "dict" (.cons (.cons (.mk "i32" .nil "") .nil)
        (.cons (.cons (.mk "f64" .nil "") .nil) .nil)) "")
      (.cons (.mk "foo" .nil "0") .nil))) = "spy_mod$dict__i32_f64$foo$0" ∧
    fullname (.cons (.mk "mod" .nil "")
      (.cons (.mk "dict" (.cons (.cons (.mk "i32" .nil "") .nil)
        (.cons (.cons (.mk "f64" .nil "") .nil) .nil)) "")
      (.cons (.mk "foo" .nil "0") .nil))) = "mod::dict[i32, f64]::foo#0" := by
  refine ⟨?_, by decide, by decide⟩
  intro parts
  simp only [c_name, mangleSpec, c_name_plain]
  rw [cNameList_eq_spec]

/-! ### Bytecode compiler: helper lemmas -/

/-- Inverts a successful `Except` bind. -/
theorem except_bind_ok {ε α β : Type} {e : Except ε α} {f : α → Except ε β} {b : β}
    (h : e >>= f = .ok b) : ∃ a, e = .ok a ∧ f a = .ok b := by
  cases e with
  | ok a => exact ⟨a, rfl, h⟩
  | error err => simp [Bind.bind, Except.bind] at h

/-- Setting an element beyond a prefix only touches the tail. -/
theorem set_append_right {α : Type} (p d : List α) (i : Nat) (x : α)
    (h : p.length ≤ i) :
    (p ++ d).set i x = p ++ d.set (i - p.length) x := by
  induction p generalizing i with
  | nil => simp
  | cons a p ih =>
    cases i with
    | zero => simp at h
    | succ j =>
      simp only [List.cons_append, List.set, List.length_cons, List.append_eq]
      rw [ih j (by simpa using h)]
      have hj : j + 1 - (p.length + 1) = j - p.length := by omega
      rw [hj]

/-- A successful `OpCode` construction used a known name. -/
theorem mkOpCode_eq_ok {nm : String} {args : List Gen.Arg} {op : Gen.OpCode}
    (h : Gen.mkOpCode nm args = .ok op) : op = ⟨nm, args⟩ := by
  unfold Gen.mkOpCode at h
  split at h
  · cases h; rfl
  · cases h

/-- A successful `emit` appends exactly the requested opcode and returns
its index. -/
theorem emit_eq_ok {b : List Gen.OpCode} {nm : String} {args : List Gen.Arg}
    {p : Nat × List Gen.OpCode} (h : Gen.emit b nm args = .ok p) :
    p = (b.length, b ++ [⟨nm, args⟩]) := by
  unfold Gen.emit at h
  obtain ⟨op, hop, h2⟩ := except_bind_ok h
  have hmk := mkOpCode_eq_ok hop
  subst hmk
  cases h2
  rfl

/-- A successful `set_args` found the ellipsis placeholder and replaced
its arguments. -/
theorem set_args_eq_ok {b : List Gen.OpCode} {i : Nat} {args : List Gen.Arg}
    {b' : List Gen.OpCode} (h : Gen.set_args b i args = .ok b') :
    ∃ op, b.get? i = some op ∧ op.args = [.ell] ∧ b' = b.set i ⟨op.name, args⟩ := by
  unfold Gen.set_args at h
  split at h
  · rename_i op hop
    split at h
    · rename_i ha
      cases h
      exact ⟨op, hop, ha, rfl⟩
    · cases h
  · cases h

/-- Branch resolution is monotone in the body length. -/
theorem brOk_mono {op : Gen.OpCode} {l1 l2 : Nat} (h : Gen.brOk op l1)
    (hle : l1 ≤ l2) : Gen.brOk op l2 := by
  intro hbr
  obtain ⟨n, ha, hn⟩ := h hbr
  exact ⟨n, ha, le_trans hn hle⟩

/-- Non-branch opcodes are vacuously resolved. -/
theorem brOk_of_not_br {op : Gen.OpCode} (h : op.is_br = false) (len : Nat) :
    Gen.brOk op len := by
  intro hbr
  rw [h] at hbr
  cases hbr

/-- `extOk` is reflexive. -/
theorem extOk_refl (b : List Gen.OpCode) : Gen.extOk b b :=
  ⟨[], by simp, by intro op hmem; cases hmem⟩

/-- `extOk` composes. -/
theorem extOk_trans {b1 b2 b3 : List Gen.OpCode} (h1 : Gen.extOk b1 b2)
    (h2 : Gen.extOk b2 b3) : Gen.extOk b1 b3 := by
  obtain ⟨d1, rfl, hd1⟩ := h1
  obtain ⟨d2, rfl, hd2⟩ := h2
  refine ⟨d1 ++ d2, by simp, ?_⟩
  intro op hmem
  rcases List.mem_append.mp hmem with hm | hm
  · exact brOk_mono (hd1 op hm) (by simp)
  · exact hd2 op hm

/-- A successful `emit` is an `extOk` step when the new opcode is
resolved for the extended length. -/
theorem extOk_emit {b : List Gen.OpCode} {nm : String} {args : List Gen.Arg}
    {p : Nat × List Gen.OpCode} (h : Gen.emit b nm args = .ok p)
    (hbr : Gen.brOk ⟨nm, args⟩ (b.length + 1)) :
    Gen.extOk b p.2 ∧ p.1 = b.length ∧ p.2 = b ++ [⟨nm, args⟩] := by
  have hp := emit_eq_ok h
  subst hp
  refine ⟨⟨[⟨nm, args⟩], rfl, ?_⟩, rfl, rfl⟩
  intro op hmem
  rcases List.mem_singleton.mp hmem with rfl
  simpa using hbr

/-- Collapses a bind whose first action is an `emit`. -/
theorem bind_emit_ok {bX : List Gen.OpCode} {nm : String} {args : List Gen.Arg}
    {k : Nat × List Gen.OpCode → Except Gen.Err (List Gen.OpCode)}
    {b' : List Gen.OpCode} (h : (Gen.emit bX nm args >>= k) = .ok b') :
    k (bX.length, bX ++ [⟨nm, args⟩]) = .ok b' := by
  obtain ⟨p, hp, h2⟩ := except_bind_ok h
  exact (emit_eq_ok hp) ▸ h2

/-- Packages an append whose new opcodes are all resolved. -/
theorem extOk_append (b d : List Gen.OpCode)
    (h : ∀ op ∈ d, Gen.brOk op (b ++ d).length) : Gen.extOk b (b ++ d) :=
  ⟨d, rfl, h⟩

mutual

/-- Expression compilation only appends opcodes, and every branch opcode
it appends is resolved within the result. -/
theorem eval_expr_ext :
    ∀ (e : Gen.Expr) (ctx : Gen.Ctx) (b b' : List Gen.OpCode),
      Gen.eval_expr ctx b e = .ok b' → Gen.extOk b b'
  | .constant c, ctx, b, b', h => by
    simp only [Gen.eval_expr] at h
    replace h := bind_emit_ok h
    cases h
    refine extOk_append b [_] ?_
    intro op hm
    rcases List.mem_singleton.mp hm with rfl
    refine brOk_of_not_br ?_ _
    rfl
  | .name id, ctx, b, b', h => by
    simp only [Gen.eval_expr] at h
    split at h
    · cases h
    · split at h
      · replace h := bind_emit_ok h
        cases h
        refine extOk_append b [_] ?_
        intro op hm
        rcases List.mem_singleton.mp hm with rfl
        refine brOk_of_not_br ?_ _
        rfl
      · replace h := bind_emit_ok h
        cases h
        refine extOk_append b [_] ?_
        intro op hm
        rcases List.mem_singleton.mp hm with rfl
        refine brOk_of_not_br ?_ _
        rfl
      · cases h
  | .binop op l r, ctx, b, b', h => by
    simp only [Gen.eval_expr] at h
    split at h
    · obtain ⟨b1, h1, h⟩ := except_bind_ok h
      obtain ⟨b2, h2, h⟩ := except_bind_ok h
      have E1 := eval_expr_ext l ctx b b1 h1
      have E2 := eval_expr_ext r ctx b1 b2 h2
      split at h
      · replace h := bind_emit_ok h
        cases h
        refine extOk_trans E1 (extOk_trans E2 (extOk_append b2 [_] ?_))
        intro opq hm
        rcases List.mem_singleton.mp hm with rfl
        refine brOk_of_not_br ?_ _
        rfl
      · split at h
        · replace h := bind_emit_ok h
          cases h
          refine extOk_trans E1 (extOk_trans E2 (extOk_append b2 [_] ?_))
          intro opq hm
          rcases List.mem_singleton.mp hm with rfl
          refine brOk_of_not_br ?_ _
          rfl
        · cases h
    · split at h
      · obtain ⟨b1, h1, h⟩ := except_bind_ok h
        obtain ⟨b2, h2, h⟩ := except_bind_ok h
        obtain ⟨p, hp, _⟩ := except_bind_ok h
        rw [show Gen.emit b2 "call_primitive" [.str "str_add"] =
            Except.error (Gen.Err.valueError ("Invalid opcode: " ++ "call_primitive"))
          from rfl] at hp
        cases hp
      · cases h
  | .cmpop op l r, ctx, b, b', h => by
    simp only [Gen.eval_expr] at h
    split at h
    · obtain ⟨b1, h1, h⟩ := except_bind_ok h
      obtain ⟨b2, h2, h⟩ := except_bind_ok h
      have E1 := eval_expr_ext l ctx b b1 h1
      have E2 := eval_expr_ext r ctx b1 b2 h2
      have leaf : ∀ nm, (Gen.OpCode.is_br ⟨nm, ([] : List Gen.Arg)⟩ = false) →
          ∀ bz, b2 ++ [(⟨nm, []⟩ : Gen.OpCode)] = bz → Gen.extOk b bz := by
        intro nm hnm bz hbz
        subst hbz
        refine extOk_trans E1 (extOk_trans E2 (extOk_append b2 [_] ?_))
        intro opq hm
        rcases List.mem_singleton.mp hm with rfl
        exact brOk_of_not_br hnm _
      split at h
      · replace h := bind_emit_ok h
        cases h
        exact leaf "i32_eq" rfl _ rfl
      · split at h
        · replace h := bind_emit_ok h
          cases h
          exact leaf "i32_neq" rfl _ rfl
        · split at h
          · replace h := bind_emit_ok h
            cases h
            exact leaf "i32_lt" rfl _ rfl
          · split at h
            · replace h := bind_emit_ok h
              cases h
              exact leaf "i32_lte" rfl _ rfl
            · split at h
              · replace h := bind_emit_ok h
                cases h
                exact leaf "i32_gt" rfl _ rfl
              · split at h
                · replace h := bind_emit_ok h
                  cases h
                  exact leaf "i32_gte" rfl _ rfl
                · cases h
    · cases h
  | .call fn args, ctx, b, b', h => by
    simp only [Gen.eval_expr] at h
    obtain ⟨isc, hisc, h⟩ := except_bind_ok h
    split at h
    · cases h
    · cases fn with
      | name funcname =>
        obtain ⟨bargs, hargs, h⟩ := except_bind_ok h
        have EA := eval_expr_list_ext args ctx b bargs hargs
        replace h := bind_emit_ok h
        cases h
        refine extOk_trans EA (extOk_append bargs [_] ?_)
        intro opq hm
        rcases List.mem_singleton.mp hm with rfl
        refine brOk_of_not_br ?_ _
        rfl
      | constant c => cases h
      | binop o a c => cases h
      | cmpop o a c => cases h
      | call f as => cases h

/-- Argument-list compilation only appends resolved opcodes. -/
theorem eval_expr_list_ext :
    ∀ (es : List Gen.Expr) (ctx : Gen.Ctx) (b b' : List Gen.OpCode),
      Gen.eval_expr_list ctx b es = .ok b' → Gen.extOk b b'
  | [], ctx, b, b', h => by
    simp only [Gen.eval_expr_list] at h
    cases h
    exact extOk_refl b
  | e :: rest, ctx, b, b', h => by
    simp only [Gen.eval_expr_list] at h
    obtain ⟨b1, h1, h2⟩ := except_bind_ok h
    exact extOk_trans (eval_expr_ext e ctx b b1 h1)
      (eval_expr_list_ext rest ctx b1 b' h2)

/-- Statement compilation only appends opcodes, and every branch opcode
it appends is resolved within the result. -/
theorem exec_stmt_ext :
    ∀ (s : Gen.Stmt) (ctx : Gen.Ctx) (b b' : List Gen.OpCode),
      Gen.exec_stmt ctx b s = .ok b' → Gen.extOk b b'
  | .ret e, ctx, b, b', h => by
    simp only [Gen.exec_stmt] at h
    obtain ⟨b1, h1, h⟩ := except_bind_ok h
    have E1 := eval_expr_ext e ctx b b1 h1
    replace h := bind_emit_ok h
    cases h
    refine extOk_trans E1 (extOk_append b1 [_] ?_)
    intro opq hm
    rcases List.mem_singleton.mp hm with rfl
    refine brOk_of_not_br ?_ _
    rfl
  | .stmtExpr e, ctx, b, b', h => by
    simp only [Gen.exec_stmt] at h
    obtain ⟨b1, h1, h⟩ := except_bind_ok h
    have E1 := eval_expr_ext e ctx b b1 h1
    replace h := bind_emit_ok h
    cases h
    refine extOk_trans E1 (extOk_append b1 [_] ?_)
    intro opq hm
    rcases List.mem_singleton.mp hm with rfl
    refine brOk_of_not_br ?_ _
    rfl
  | .vardef nm e, ctx, b, b', h => by
    simp only [Gen.exec_stmt] at h
    split at h
    · split at h
      · obtain ⟨b1, h1, h⟩ := except_bind_ok h
        have E1 := eval_expr_ext e ctx b b1 h1
        replace h := bind_emit_ok h
        cases h
        refine extOk_trans E1 (extOk_append b1 [_] ?_)
        intro opq hm
        rcases List.mem_singleton.mp hm with rfl
        refine brOk_of_not_br ?_ _
        rfl
      · cases h
    · cases h
  | .assign target e, ctx, b, b', h => by
    simp only [Gen.exec_stmt] at h
    split at h
    · cases h
    · obtain ⟨b1, h1, h⟩ := except_bind_ok h
      have E1 := eval_expr_ext e ctx b b1 h1
      split at h
      · replace h := bind_emit_ok h
        cases h
        refine extOk_trans E1 (extOk_append b1 [_] ?_)
        intro opq hm
        rcases List.mem_singleton.mp hm with rfl
        refine brOk_of_not_br ?_ _
        rfl
      · replace h := bind_emit_ok h
        cases h
        refine extOk_trans E1 (extOk_append b1 [_] ?_)
        intro opq hm
        rcases List.mem_singleton.mp hm with rfl
        refine brOk_of_not_br ?_ _
        rfl
      · cases h
  | .ifStmt test thenBody elseBody, ctx, b, b', h => by
    simp only [Gen.exec_stmt] at h
    split at h
    · -- if without else
      replace h := bind_emit_ok h
      dsimp only at h
      obtain ⟨b1, h1, h⟩ := except_bind_ok h
      obtain ⟨dc, hdc, hdcok⟩ := eval_expr_ext test ctx _ b1 h1
      replace h := bind_emit_ok h
      dsimp only at h
      obtain ⟨b3, h3, h⟩ := except_bind_ok h
      obtain ⟨dt, hdt, hdtok⟩ := exec_stmt_list_ext thenBody ctx _ b3 h3
      obtain ⟨b4, h4, h⟩ := except_bind_ok h
      obtain ⟨opif, hifget, hifell, hb4⟩ := set_args_eq_ok h4
      obtain ⟨b5, h5, h⟩ := except_bind_ok h
      obtain ⟨opmk, hmkget, hmkell, hb5⟩ := set_args_eq_ok h5
      cases h
      have hb1 : b1 = (b ++ [(Gen.OpCode.mk "mark_if_then" [Gen.Arg.ell])]) ++ dc := hdc
      have hopif : opif = (Gen.OpCode.mk "br_if_not" [Gen.Arg.ell]) := by
        rw [hdt, List.append_assoc, List.get?_append_right (le_refl _)] at hifget
        simp only [Nat.sub_self, List.singleton_append, List.get?] at hifget
        exact ((Option.some.injEq _ _).mp hifget).symm
      have hb4' : b4 = b1 ++ ((Gen.OpCode.mk "br_if_not" [Gen.Arg.num b3.length]) :: dt) := by
        rw [hb4, hopif, hdt, List.append_assoc,
          set_append_right b1 _ b1.length _ (le_refl _)]
        simp [List.set]
      have hopmk : opmk = (Gen.OpCode.mk "mark_if_then" [Gen.Arg.ell]) := by
        rw [hb4', hb1] at hmkget
        simp only [List.append_assoc] at hmkget
        rw [List.get?_append_right (le_refl _)] at hmkget
        simp only [Nat.sub_self, List.singleton_append, List.get?] at hmkget
        exact ((Option.some.injEq _ _).mp hmkget).symm
      have hb5' : b' = b ++
          ((Gen.OpCode.mk "mark_if_then" [Gen.Arg.num b1.length, Gen.Arg.num b3.length]) ::
            (dc ++ (Gen.OpCode.mk "br_if_not" [Gen.Arg.num b3.length]) :: dt)) := by
        rw [hb5, hopmk, hb4', hb1]
        simp only [List.append_assoc]
        rw [set_append_right b _ b.length _ (le_refl _)]
        simp [List.set, Nat.sub_self, List.singleton_append]
      have hLb1 : b1.length = b.length + 1 + dc.length := by
        rw [hb1]; simp only [List.length_append, List.length_cons, List.length_nil]
      have hLb3 : b3.length = b1.length + 1 + dt.length := by
        rw [hdt]; simp only [List.length_append, List.length_cons, List.length_nil]
      have hLb5 : b'.length = b3.length := by
        rw [hb5, hb4]; simp [List.length_set]
      refine ⟨_, hb5', ?_⟩
      intro opq hm
      rcases List.mem_cons.mp hm with rfl | hm
      · refine brOk_of_not_br ?_ _
        rfl
      rcases List.mem_append.mp hm with hm | hm
      · exact brOk_mono (hdcok opq hm) (by omega)
      rcases List.mem_cons.mp hm with rfl | hm
      · intro _
        exact ⟨b3.length, rfl, by omega⟩
      · exact brOk_mono (hdtok opq hm) (by omega)
    · -- if with else
      replace h := bind_emit_ok h
      dsimp only at h
      obtain ⟨b1, h1, h⟩ := except_bind_ok h
      obtain ⟨dc, hdc, hdcok⟩ := eval_expr_ext test ctx _ b1 h1
      replace h := bind_emit_ok h
      dsimp only at h
      obtain ⟨b3, h3, h⟩ := except_bind_ok h
      obtain ⟨dt, hdt, hdtok⟩ := exec_stmt_list_ext thenBody ctx _ b3 h3
      replace h := bind_emit_ok h
      dsimp only at h
      obtain ⟨b5, h5, h⟩ := except_bind_ok h
      obtain ⟨de, hde, hdeok⟩ := exec_stmt_list_ext elseBody ctx _ b5 h5
      obtain ⟨b6, h6, h⟩ := except_bind_ok h
      obtain ⟨opif, hifget, hifell, hb6⟩ := set_args_eq_ok h6
      obtain ⟨b7, h7, h⟩ := except_bind_ok h
      obtain ⟨opbr, hbrget, hbrell, hb7⟩ := set_args_eq_ok h7
      obtain ⟨b8, h8, h⟩ := except_bind_ok h
      obtain ⟨opmk, hmkget, hmkell, hb8⟩ := set_args_eq_ok h8
      cases h
      have hb1 : b1 = (b ++ [(Gen.OpCode.mk "mark_if_then_else" [Gen.Arg.ell])]) ++ dc := hdc
      have hb5' : b5 = b1 ++ ([(Gen.OpCode.mk "br_if_not" [Gen.Arg.ell])] ++ (dt ++ ([(Gen.OpCode.mk "br" [Gen.Arg.ell])] ++ de))) := by
        rw [hde, hdt]
        simp [List.append_assoc]
      have hopif : opif = (Gen.OpCode.mk "br_if_not" [Gen.Arg.ell]) := by
        rw [hb5', List.get?_append_right (le_refl _)] at hifget
        simp only [Nat.sub_self, List.singleton_append, List.get?] at hifget
        exact ((Option.some.injEq _ _).mp hifget).symm
      have hb6' : b6 = b1 ++
          ((Gen.OpCode.mk "br_if_not" [Gen.Arg.num ((b3 ++ [(Gen.OpCode.mk "br" [Gen.Arg.ell])]).length)]) :: (dt ++ ([(Gen.OpCode.mk "br" [Gen.Arg.ell])] ++ de))) := by
        rw [hb6, hopif, hb5', set_append_right b1 _ b1.length _ (le_refl _)]
        simp [List.set, Nat.sub_self, List.singleton_append]
      have hLb3 : b3.length = b1.length + 1 + dt.length := by
        rw [hdt]; simp only [List.length_append, List.length_cons, List.length_nil]
      have hb6'' : b6 = (b1 ++ (Gen.OpCode.mk "br_if_not" [Gen.Arg.num ((b3 ++ [(Gen.OpCode.mk "br" [Gen.Arg.ell])]).length)]) :: dt) ++
          ([(Gen.OpCode.mk "br" [Gen.Arg.ell])] ++ de) := by
        rw [hb6']
        simp [List.append_assoc]
      have hopbr : opbr = (Gen.OpCode.mk "br" [Gen.Arg.ell]) := by
        rw [hb6'', List.get?_append_right (by simp; omega)] at hbrget
        have hidx : b3.length - (b1 ++ (Gen.OpCode.mk "br_if_not"
            [Gen.Arg.num ((b3 ++ [(Gen.OpCode.mk "br" [Gen.Arg.ell])]).length)]) :: dt).length = 0 := by
          simp; omega
        rw [hidx] at hbrget
        simp only [List.singleton_append, List.get?] at hbrget
        exact ((Option.some.injEq _ _).mp hbrget).symm
      have hb7' : b7 = (b1 ++ (Gen.OpCode.mk "br_if_not" [Gen.Arg.num ((b3 ++ [(Gen.OpCode.mk "br" [Gen.Arg.ell])]).length)]) :: dt) ++
          ((Gen.OpCode.mk "br" [Gen.Arg.num b5.length]) :: de) := by
        rw [hb7, hopbr, hb6'', set_append_right _ _ b3.length _ (by simp; omega)]
        have hidx : b3.length - (b1 ++ (Gen.OpCode.mk "br_if_not"
            [Gen.Arg.num ((b3 ++ [(Gen.OpCode.mk "br" [Gen.Arg.ell])]).length)]) :: dt).length = 0 := by
          simp; omega
        rw [hidx]
        simp [List.set, List.singleton_append]
      have hb7'' : b7 = b ++ ([(Gen.OpCode.mk "mark_if_then_else" [Gen.Arg.ell])] ++
          ((dc ++ (Gen.OpCode.mk "br_if_not" [Gen.Arg.num ((b3 ++ [(Gen.OpCode.mk "br" [Gen.Arg.ell])]).length)]) :: dt) ++
            ((Gen.OpCode.mk "br" [Gen.Arg.num b5.length]) :: de))) := by
        rw [hb7', hb1]
        simp [List.append_assoc]
      have hopmk : opmk = (Gen.OpCode.mk "mark_if_then_else" [Gen.Arg.ell]) := by
        rw [hb7'', List.get?_append_right (le_refl _)] at hmkget
        simp only [Nat.sub_self, List.singleton_append, List.get?] at hmkget
        exact ((Option.some.injEq _ _).mp hmkget).symm
      have hb8' : b' = b ++
          ((Gen.OpCode.mk "mark_if_then_else" [Gen.Arg.num b1.length, Gen.Arg.num ((b3 ++ [(Gen.OpCode.mk "br" [Gen.Arg.ell])]).length),
              Gen.Arg.num b5.length]) ::
            ((dc ++ (Gen.OpCode.mk "br_if_not" [Gen.Arg.num ((b3 ++ [(Gen.OpCode.mk "br" [Gen.Arg.ell])]).length)]) :: dt) ++
              ((Gen.OpCode.mk "br" [Gen.Arg.num b5.length]) :: de))) := by
        rw [hb8, hopmk, hb7'']
        rw [set_append_right b _ b.length _ (le_refl _)]
        simp [List.set, Nat.sub_self, List.singleton_append]
      have hLb1 : b1.length = b.length + 1 + dc.length := by
        rw [hb1]; simp only [List.length_append, List.length_cons, List.length_nil]
      have hLb5 : b5.length = b3.length + 1 + de.length := by
        rw [hde]; simp only [List.length_append, List.length_cons, List.length_nil]
      have hLb8 : b'.length = b5.length := by
        rw [hb8, hb7, hb6]; simp [List.length_set]
      refine ⟨_, hb8', ?_⟩
      intro opq hm
      rcases List.mem_cons.mp hm with rfl | hm
      · refine brOk_of_not_br ?_ _
        rfl
      rcases List.mem_append.mp hm with hm | hm
      · rcases List.mem_append.mp hm with hm | hm
        · exact brOk_mono (hdcok opq hm) (by omega)
        rcases List.mem_cons.mp hm with rfl | hm
        · intro _
          refine ⟨(b3 ++ [(Gen.OpCode.mk "br" [Gen.Arg.ell])]).length, rfl, ?_⟩
          simp
          omega
        · exact brOk_mono (hdtok opq hm) (by omega)
      · rcases List.mem_cons.mp hm with rfl | hm
        · intro _
          exact ⟨b5.length, rfl, by omega⟩
        · exact brOk_mono (hdeok opq hm) (by omega)
  | .whileStmt test loopBody, ctx, b, b', h => by
    simp only [Gen.exec_stmt] at h
    replace h := bind_emit_ok h
    dsimp only at h
    obtain ⟨b1, h1, h⟩ := except_bind_ok h
    obtain ⟨dc, hdc, hdcok⟩ := eval_expr_ext test ctx _ b1 h1
    replace h := bind_emit_ok h
    dsimp only at h
    obtain ⟨b3, h3, h⟩ := except_bind_ok h
    obtain ⟨dl, hdl, hdlok⟩ := exec_stmt_list_ext loopBody ctx _ b3 h3
    replace h := bind_emit_ok h
    dsimp only at h
    obtain ⟨b5, h5, h⟩ := except_bind_ok h
    obtain ⟨opif, hifget, hifell, hb5⟩ := set_args_eq_ok h5
    obtain ⟨b6, h6, h⟩ := except_bind_ok h
    obtain ⟨opmk, hmkget, hmkell, hb6⟩ := set_args_eq_ok h6
    cases h
    have hb1 : b1 = (b ++ [(Gen.OpCode.mk "mark_while" [Gen.Arg.ell])]) ++ dc := hdc
    have hb4 : b3 ++ [((Gen.OpCode.mk "br" [Gen.Arg.num (b ++ [(Gen.OpCode.mk "mark_while" [Gen.Arg.ell])]).length]) : Gen.OpCode)] =
        b1 ++ ([(Gen.OpCode.mk "br_if_not" [Gen.Arg.ell])] ++
          (dl ++ [(Gen.OpCode.mk "br" [Gen.Arg.num (b ++ [(Gen.OpCode.mk "mark_while" [Gen.Arg.ell])]).length])])) := by
      rw [hdl]
      simp [List.append_assoc]
    have hopif : opif = (Gen.OpCode.mk "br_if_not" [Gen.Arg.ell]) := by
      rw [hb4, List.get?_append_right (le_refl _)] at hifget
      simp only [Nat.sub_self, List.singleton_append, List.get?] at hifget
      exact ((Option.some.injEq _ _).mp hifget).symm
    have hb5' : b5 = b ++ ([(Gen.OpCode.mk "mark_while" [Gen.Arg.ell])] ++
        ((dc ++ (Gen.OpCode.mk "br_if_not"
            [Gen.Arg.num ((b3 ++ [(Gen.OpCode.mk "br" [Gen.Arg.num (b ++ [(Gen.OpCode.mk "mark_while" [Gen.Arg.ell])]).length])]).length)]) :: dl) ++
          [(Gen.OpCode.mk "br" [Gen.Arg.num (b ++ [(Gen.OpCode.mk "mark_while" [Gen.Arg.ell])]).length])])) := by
      rw [hb5, hopif, hb4, set_append_right b1 _ b1.length _ (le_refl _), hb1]
      simp [List.set, Nat.sub_self, List.singleton_append, List.append_assoc]
    have hopmk : opmk = (Gen.OpCode.mk "mark_while" [Gen.Arg.ell]) := by
      rw [hb5', List.get?_append_right (le_refl _)] at hmkget
      simp only [Nat.sub_self, List.singleton_append, List.get?] at hmkget
      exact ((Option.some.injEq _ _).mp hmkget).symm
    have hb6' : b' = b ++
        ((Gen.OpCode.mk "mark_while" [Gen.Arg.num b1.length,
            Gen.Arg.num ((b1 ++ [(Gen.OpCode.mk "br_if_not" [Gen.Arg.ell])]).length + dl.length)]) ::
          ((dc ++ (Gen.OpCode.mk "br_if_not"
              [Gen.Arg.num ((b3 ++ [(Gen.OpCode.mk "br" [Gen.Arg.num (b ++ [(Gen.OpCode.mk "mark_while" [Gen.Arg.ell])]).length])]).length)]) :: dl) ++
            [(Gen.OpCode.mk "br" [Gen.Arg.num (b ++ [(Gen.OpCode.mk "mark_while" [Gen.Arg.ell])]).length])])) := by
      rw [hb6, hopmk, hb5', set_append_right b _ b.length _ (le_refl _)]
      have hloop : (b3 : List Gen.OpCode).length =
          (b1 ++ [(Gen.OpCode.mk "br_if_not" [Gen.Arg.ell])]).length + dl.length := by
        rw [hdl]; simp only [List.length_append, List.length_cons, List.length_nil]
      rw [hloop]
      simp [List.set, Nat.sub_self, List.singleton_append]
    have hLb1 : b1.length = b.length + 1 + dc.length := by
      rw [hb1]; simp only [List.length_append, List.length_cons, List.length_nil]
    have hLb3 : b3.length = b1.length + 1 + dl.length := by
      rw [hdl]; simp only [List.length_append, List.length_cons, List.length_nil]
    have hLb6 : b'.length = b3.length + 1 := by
      rw [hb6, hb5]; simp [List.length_set]
    refine ⟨_, hb6', ?_⟩
    intro opq hm
    rcases List.mem_cons.mp hm with rfl | hm
    · refine brOk_of_not_br ?_ _
      rfl
    rcases List.mem_append.mp hm with hm | hm
    · rcases List.mem_append.mp hm with hm | hm
      · exact brOk_mono (hdcok opq hm) (by omega)
      rcases List.mem_cons.mp hm with rfl | hm
      · intro _
        refine ⟨(b3 ++ [(Gen.OpCode.mk "br" [Gen.Arg.num (b ++ [(Gen.OpCode.mk "mark_while" [Gen.Arg.ell])]).length])]).length, rfl, ?_⟩
        simp
        omega
      · exact brOk_mono (hdlok opq hm) (by omega)
    · rcases List.mem_singleton.mp hm with rfl
      intro _
      refine ⟨(b ++ [(Gen.OpCode.mk "mark_while" [Gen.Arg.ell])]).length, rfl, ?_⟩
      simp
      omega

/-- Statement-list compilation only appends resolved opcodes. -/
theorem exec_stmt_list_ext :
    ∀ (ss : List Gen.Stmt) (ctx : Gen.Ctx) (b b' : List Gen.OpCode),
      Gen.exec_stmt_list ctx b ss = .ok b' → Gen.extOk b b'
  | [], ctx, b, b', h => by
    simp only [Gen.exec_stmt_list] at h
    cases h
    exact extOk_refl b
  | s :: rest, ctx, b, b', h => by
    simp only [Gen.exec_stmt_list] at h
    obtain ⟨b1, h1, h2⟩ := except_bind_ok h
    exact extOk_trans (exec_stmt_ext s ctx b b1 h1)
      (exec_stmt_list_ext rest ctx b1 b' h2)

end

/-- C6: in every code object the bytecode compiler produces, every branch
opcode carries exactly one concrete target index in `[0, len(body)]`
(placeholders all patched); and patching an opcode whose arguments are
already set raises `ValueError`, so a target can be set at most once. -/
theorem branch_targets_set_once_in_range :
    (∀ (ctx : Gen.Ctx) (stmts : List Gen.Stmt) (code : List Gen.OpCode),
      Gen.make_w_code ctx stmts = .ok code →
      ∀ op ∈ code, op.is_br = true → ∃ n, op.args = [.num n] ∧ n ≤ code.length) ∧
    (∀ (body : List Gen.OpCode) (i : Nat) (args : List Gen.Arg) (op : Gen.OpCode),
      body.get? i = some op → op.args ≠ [.ell] →
      Gen.set_args body i args =
        .error (.valueError "Cannot set args on a fully constructed op")) := by
  constructor
  · intro ctx stmts code h
    unfold Gen.make_w_code at h
    obtain ⟨b, hb, h⟩ := except_bind_ok h
    have E := exec_stmt_list_ext stmts ctx [] b hb
    have hext : Gen.extOk [] code := by
      split at h
      · replace h := bind_emit_ok h
        dsimp only at h
        replace h := bind_emit_ok h
        dsimp only at h
        cases h
        refine extOk_trans E (extOk_trans (extOk_append b [_] ?_)
          (extOk_append (b ++ [⟨"load_const", [.obj "w_None"]⟩]) [_] ?_))
        · intro opq hm
          rcases List.mem_singleton.mp hm with rfl
          refine brOk_of_not_br ?_ _
          rfl
        · intro opq hm
          rcases List.mem_singleton.mp hm with rfl
          refine brOk_of_not_br ?_ _
          rfl
      · replace h := bind_emit_ok h
        dsimp only at h
        cases h
        refine extOk_trans E (extOk_append b [_] ?_)
        intro opq hm
        rcases List.mem_singleton.mp hm with rfl
        refine brOk_of_not_br ?_ _
        rfl
    obtain ⟨d, hd, hdok⟩ := hext
    intro op hmem hbr
    refine hdok op ?_ hbr
    rw [List.nil_append] at hd
    rw [← hd]
    exact hmem
  · intro body i args op hget hne
    unfold Gen.set_args
    rw [hget]
    dsimp only
    rw [if_neg hne]

/-- Witness for C6: a compiled while-loop function evaluates concretely,
and the claim theorem applied to it bounds its branch targets. -/
theorem branch_targets_witness :
    Gen.make_w_code ⟨fun _ => some ⟨.loc, false⟩, fun _ => .i32, fun c => c, true⟩
      [.whileStmt (.name "x") [.assign "x" (.name "y")]] =
      .ok [⟨"mark_while", [.num 2, .num 5]⟩, ⟨"load_local", [.str "x"]⟩,
           ⟨"br_if_not", [.num 6]⟩, ⟨"load_local", [.str "y"]⟩,
           ⟨"store_local", [.str "x"]⟩, ⟨"br", [.num 1]⟩,
           ⟨"load_const", [.obj "w_None"]⟩, ⟨"return", []⟩] ∧
    (∀ op ∈ [(⟨"mark_while", [.num 2, .num 5]⟩ : Gen.OpCode), ⟨"load_local", [.str "x"]⟩,
           ⟨"br_if_not", [.num 6]⟩, ⟨"load_local", [.str "y"]⟩,
           ⟨"store_local", [.str "x"]⟩, ⟨"br", [.num 1]⟩,
           ⟨"load_const", [.obj "w_None"]⟩, ⟨"return", []⟩],
      op.is_br = true → ∃ n, op.args = [.num n] ∧ n ≤ 8) :=
  ⟨rfl, branch_targets_set_once_in_range.1
    ⟨fun _ => some ⟨.loc, false⟩, fun _ => .i32, fun c => c, true⟩
    [.whileStmt (.name "x") [.assign "x" (.name "y")]] _ rfl⟩

/-- C5: compiling `while cond: body` yields, after the structural
`mark_while` opcode, the instruction order cond-eval, branch-if-false to
END, body, branch to START, where START = `b.length + 1` is the index of
the first condition opcode, END = `len(b')` is the index right after the
final back-branch, and the `br_if_not` placeholder is back-patched to
END. -/
theorem while_lowering_shape :
    ∀ (ctx : Gen.Ctx) (b b' : List Gen.OpCode) (test : Gen.Expr)
      (loopBody : List Gen.Stmt),
      Gen.exec_stmt ctx b (.whileStmt test loopBody) = .ok b' →
      ∃ dc dl : List Gen.OpCode,
        Gen.eval_expr ctx (b ++ [Gen.OpCode.mk "mark_while" [Gen.Arg.ell]]) test =
          .ok ((b ++ [Gen.OpCode.mk "mark_while" [Gen.Arg.ell]]) ++ dc) ∧
        Gen.exec_stmt_list ctx
            (((b ++ [Gen.OpCode.mk "mark_while" [Gen.Arg.ell]]) ++ dc) ++
              [Gen.OpCode.mk "br_if_not" [Gen.Arg.ell]]) loopBody =
          .ok ((((b ++ [Gen.OpCode.mk "mark_while" [Gen.Arg.ell]]) ++ dc) ++
              [Gen.OpCode.mk "br_if_not" [Gen.Arg.ell]]) ++ dl) ∧
        b' = b ++
          [Gen.OpCode.mk "mark_while"
            [Gen.Arg.num (b.length + 1 + dc.length),
             Gen.Arg.num (b.length + 1 + dc.length + 1 + dl.length)]] ++
          dc ++ [Gen.OpCode.mk "br_if_not" [Gen.Arg.num b'.length]] ++ dl ++
          [Gen.OpCode.mk "br" [Gen.Arg.num (b.length + 1)]] ∧
        b'.length = b.length + 1 + dc.length + 1 + dl.length + 1 := by
  intro ctx b b' test loopBody h
  simp only [Gen.exec_stmt] at h
  replace h := bind_emit_ok h
  dsimp only at h
  obtain ⟨b1, h1, h⟩ := except_bind_ok h
  obtain ⟨dc, hdc, hdcok⟩ := eval_expr_ext test ctx _ b1 h1
  replace h := bind_emit_ok h
  dsimp only at h
  obtain ⟨b3, h3, h⟩ := except_bind_ok h
  obtain ⟨dl, hdl, hdlok⟩ := exec_stmt_list_ext loopBody ctx _ b3 h3
  replace h := bind_emit_ok h
  dsimp only at h
  obtain ⟨b5, h5, h⟩ := except_bind_ok h
  obtain ⟨opif, hifget, hifell, hb5⟩ := set_args_eq_ok h5
  obtain ⟨b6, h6, h⟩ := except_bind_ok h
  obtain ⟨opmk, hmkget, hmkell, hb6⟩ := set_args_eq_ok h6
  cases h
  have hb1 : b1 = (b ++ [(Gen.OpCode.mk "mark_while" [Gen.Arg.ell])]) ++ dc := hdc
  have hb4 : b3 ++ [(Gen.OpCode.mk "br"
        [Gen.Arg.num (b ++ [(Gen.OpCode.mk "mark_while" [Gen.Arg.ell])]).length])] =
      b1 ++ ([(Gen.OpCode.mk "br_if_not" [Gen.Arg.ell])] ++
        (dl ++ [(Gen.OpCode.mk "br"
          [Gen.Arg.num (b ++ [(Gen.OpCode.mk "mark_while" [Gen.Arg.ell])]).length])])) := by
    rw [hdl]
    simp [List.append_assoc]
  have hopif : opif = (Gen.OpCode.mk "br_if_not" [Gen.Arg.ell]) := by
    rw [hb4, List.get?_append_right (le_refl _)] at hifget
    simp only [Nat.sub_self, List.singleton_append, List.get?] at hifget
    exact ((Option.some.injEq _ _).mp hifget).symm
  have hb5' : b5 = b ++ ([(Gen.OpCode.mk "mark_while" [Gen.Arg.ell])] ++
      ((dc ++ (Gen.OpCode.mk "br_if_not"
          [Gen.Arg.num ((b3 ++ [(Gen.OpCode.mk "br"
            [Gen.Arg.num (b ++ [(Gen.OpCode.mk "mark_while" [Gen.Arg.ell])]).length])]).length)]) :: dl) ++
        [(Gen.OpCode.mk "br"
          [Gen.Arg.num (b ++ [(Gen.OpCode.mk "mark_while" [Gen.Arg.ell])]).length])])) := by
    rw [hb5, hopif, hb4, set_append_right b1 _ b1.length _ (le_refl _), hb1]
    simp [List.set, Nat.sub_self, List.singleton_append, List.append_assoc]
  have hopmk : opmk = (Gen.OpCode.mk "mark_while" [Gen.Arg.ell]) := by
    rw [hb5', List.get?_append_right (le_refl _)] at hmkget
    simp only [Nat.sub_self, List.singleton_append, List.get?] at hmkget
    exact ((Option.some.injEq _ _).mp hmkget).symm
  have hb6' : b' = b ++
      ((Gen.OpCode.mk "mark_while" [Gen.Arg.num b1.length,
          Gen.Arg.num ((b1 ++ [(Gen.OpCode.mk "br_if_not" [Gen.Arg.ell])]).length + dl.length)]) ::
        ((dc ++ (Gen.OpCode.mk "br_if_not"
            [Gen.Arg.num ((b3 ++ [(Gen.OpCode.mk "br"
              [Gen.Arg.num (b ++ [(Gen.OpCode.mk "mark_while" [Gen.Arg.ell])]).length])]).length)]) :: dl) ++
          [(Gen.OpCode.mk "br"
            [Gen.Arg.num (b ++ [(Gen.OpCode.mk "mark_while" [Gen.Arg.ell])]).length])])) := by
    rw [hb6, hopmk, hb5', set_append_right b _ b.length _ (le_refl _)]
    have hloop : (b3 : List Gen.OpCode).length =
        (b1 ++ [(Gen.OpCode.mk "br_if_not" [Gen.Arg.ell])]).length + dl.length := by
      rw [hdl]; simp only [List.length_append, List.length_cons, List.length_nil]
    rw [hloop]
    simp [List.set, Nat.sub_self, List.singleton_append]
  have hLb1 : b1.length = b.length + 1 + dc.length := by
    rw [hb1]; simp only [List.length_append, List.length_cons, List.length_nil]
  have hLb3 : b3.length = b1.length + 1 + dl.length := by
    rw [hdl]; simp only [List.length_append, List.length_cons, List.length_nil]
  have hLb6 : b'.length = b3.length + 1 := by
    rw [hb6, hb5]; simp [List.length_set]
  have e4 : (b ++ [(Gen.OpCode.mk "mark_while" [Gen.Arg.ell])]).length = b.length + 1 := by
    simp only [List.length_append, List.length_cons, List.length_nil]
  rw [e4] at hb6'
  have e3 : (b3 ++ [(Gen.OpCode.mk "br" [Gen.Arg.num (b.length + 1)])]).length = b'.length := by
    simp only [List.length_append, List.length_cons, List.length_nil]
    omega
  rw [e3] at hb6'
  have e2 : (b1 ++ [(Gen.OpCode.mk "br_if_not" [Gen.Arg.ell])]).length + dl.length =
      b.length + 1 + dc.length + 1 + dl.length := by
    simp only [List.length_append, List.length_cons, List.length_nil]
    omega
  rw [e2, hLb1] at hb6'
  refine ⟨dc, dl, ?_, ?_, ?_, ?_⟩
  · rw [← hb1]
    exact h1
  · have h3' := h3
    rw [hdl] at h3'
    rw [hb1] at h3'
    exact h3'
  · rw [hb6']
    simp [List.append_assoc]
    omega
  · omega

/-- Witness for C5: the shape theorem applied to a concretely compiled
while loop. -/
theorem while_lowering_shape_witness :
    ∃ dc dl : List Gen.OpCode,
      Gen.eval_expr ⟨fun _ => some ⟨.loc, false⟩, fun _ => .i32, fun c => c, true⟩
          ([] ++ [Gen.OpCode.mk "mark_while" [Gen.Arg.ell]]) (.name "x") =
        .ok (([] ++ [Gen.OpCode.mk "mark_while" [Gen.Arg.ell]]) ++ dc) ∧
      Gen.exec_stmt_list ⟨fun _ => some ⟨.loc, false⟩, fun _ => .i32, fun c => c, true⟩
          ((([] ++ [Gen.OpCode.mk "mark_while" [Gen.Arg.ell]]) ++ dc) ++
            [Gen.OpCode.mk "br_if_not" [Gen.Arg.ell]]) [] =
        .ok (((([] ++ [Gen.OpCode.mk "mark_while" [Gen.Arg.ell]]) ++ dc) ++
            [Gen.OpCode.mk "br_if_not" [Gen.Arg.ell]]) ++ dl) ∧
      [Gen.OpCode.mk "mark_while" [Gen.Arg.num 2, Gen.Arg.num 3],
       Gen.OpCode.mk "load_local" [Gen.Arg.str "x"],
       Gen.OpCode.mk "br_if_not" [Gen.Arg.num 4],
       Gen.OpCode.mk "br" [Gen.Arg.num 1]] = [] ++
        [Gen.OpCode.mk "mark_while"
          [Gen.Arg.num (List.length ([] : List Gen.OpCode) + 1 + dc.length),
           Gen.Arg.num (List.length ([] : List Gen.OpCode) + 1 + dc.length + 1 + dl.length)]] ++
        dc ++ [Gen.OpCode.mk "br_if_not"
          [Gen.Arg.num ([Gen.OpCode.mk "mark_while" [Gen.Arg.num 2, Gen.Arg.num 3],
            Gen.OpCode.mk "load_local" [Gen.Arg.str "x"],
            Gen.OpCode.mk "br_if_not" [Gen.Arg.num 4],
            Gen.OpCode.mk "br" [Gen.Arg.num 1]].length)]] ++ dl ++
        [Gen.OpCode.mk "br" [Gen.Arg.num (List.length ([] : List Gen.OpCode) + 1)]] ∧
      [Gen.OpCode.mk "mark_while" [Gen.Arg.num 2, Gen.Arg.num 3],
       Gen.OpCode.mk "load_local" [Gen.Arg.str "x"],
       Gen.OpCode.mk "br_if_not" [Gen.Arg.num 4],
       Gen.OpCode.mk "br" [Gen.Arg.num 1]].length =
        List.length ([] : List Gen.OpCode) + 1 + dc.length + 1 + dl.length + 1 :=
  while_lowering_shape ⟨fun _ => some ⟨.loc, false⟩, fun _ => .i32, fun c => c, true⟩
    [] _ (.name "x") [] rfl

/-- C8 is false as stated: lowering `+` between two f64 operands (outside
the directly-lowered set) raises a plain `NotImplementedError` carrying no
location, not a structured `CompileError`, even though its message does
name the operator and both type names. -/
theorem binop_error_cex :
    Gen.eval_expr ⟨fun _ => some ⟨.loc, false⟩, fun _ => .f64, fun c => c, false⟩ []
      (.binop "+" (.name "x") (.name "y")) =
      .error (.notImplementedError "+ op between f64 and f64") ∧
    ∀ msg : String,
      Gen.Err.notImplementedError "+ op between f64 and f64" ≠ .spyCompileError msg :=
  ⟨rfl, fun _ h => Gen.Err.noConfusion h⟩

/-- C8 amended: a binary or comparison operator whose
(operator, leftType, rightType) combination is outside the directly
lowered set fails with `NotImplementedError` whose message names the
operator and both operand type names — not a location-carrying
`CompileError`.  For an i32/i32 pair with an unsupported operator the
error surfaces after the operand subcompilations succeed. -/
theorem binop_outside_set_error :
    (∀ (ctx : Gen.Ctx) (body : List Gen.OpCode) (op : String) (l r : Gen.Expr)
       (b1 b2 : List Gen.OpCode),
      ctx.etype l = .i32 → ctx.etype r = .i32 → op ≠ "+" → op ≠ "*" →
      Gen.eval_expr ctx body l = .ok b1 → Gen.eval_expr ctx b1 r = .ok b2 →
      Gen.eval_expr ctx body (.binop op l r) =
        .error (.notImplementedError (op ++ " op between i32 and i32"))) ∧
    (∀ (ctx : Gen.Ctx) (body : List Gen.OpCode) (op : String) (l r : Gen.Expr),
      ¬(ctx.etype l = .i32 ∧ ctx.etype r = .i32) →
      ¬(ctx.etype l = .str ∧ ctx.etype r = .str ∧ op = "+") →
      Gen.eval_expr ctx body (.binop op l r) =
        .error (.notImplementedError
          (op ++ " op between " ++ (ctx.etype l).tname ++ " and " ++ (ctx.etype r).tname))) ∧
    (∀ (ctx : Gen.Ctx) (body : List Gen.OpCode) (op : String) (l r : Gen.Expr)
       (b1 b2 : List Gen.OpCode),
      ctx.etype l = .i32 → ctx.etype r = .i32 →
      op ≠ "==" → op ≠ "!=" → op ≠ "<" → op ≠ "<=" → op ≠ ">" → op ≠ ">=" →
      Gen.eval_expr ctx body l = .ok b1 → Gen.eval_expr ctx b1 r = .ok b2 →
      Gen.eval_expr ctx body (.cmpop op l r) =
        .error (.notImplementedError (op ++ " op between i32 and i32"))) ∧
    (∀ (ctx : Gen.Ctx) (body : List Gen.OpCode) (op : String) (l r : Gen.Expr),
      ¬(ctx.etype l = .i32 ∧ ctx.etype r = .i32) →
      Gen.eval_expr ctx body (.cmpop op l r) =
        .error (.notImplementedError
          (op ++ " op between " ++ (ctx.etype l).tname ++ " and " ++ (ctx.etype r).tname))) := by
  refine ⟨?_, ?_, ?_, ?_⟩
  · intro ctx body op l r b1 b2 hl hr hop1 hop2 he1 he2
    simp only [Gen.eval_expr, hl, hr, he1, he2, Bind.bind, Except.bind, Gen.VMType.tname]
    simp only [hop1, hop2]
    have hs : op ++ " op between " ++ "i32" ++ " and " ++ "i32" =
        op ++ " op between i32 and i32" := by
      simp only [String.append_assoc]
      rfl
    simp [hs]
  · intro ctx body op l r hc1 hc2
    simp only [Gen.eval_expr]
    split
    · rename_i hcond
      rw [Bool.and_eq_true, decide_eq_true_eq, decide_eq_true_eq] at hcond
      exact absurd hcond hc1
    split
    · rename_i hcond
      rw [Bool.and_eq_true, Bool.and_eq_true, decide_eq_true_eq, decide_eq_true_eq,
        decide_eq_true_eq] at hcond
      exact absurd ⟨hcond.1.1, hcond.1.2, hcond.2⟩ hc2
    · rfl
  · intro ctx body op l r b1 b2 hl hr h1 h2 h3 h4 h5 h6 he1 he2
    simp only [Gen.eval_expr, hl, hr, he1, he2, Bind.bind, Except.bind, Gen.VMType.tname]
    simp only [h1, h2, h3, h4, h5, h6]
    have hs : op ++ " op between " ++ "i32" ++ " and " ++ "i32" =
        op ++ " op between i32 and i32" := by
      simp only [String.append_assoc]
      rfl
    simp [hs]
  · intro ctx body op l r hc1
    simp only [Gen.eval_expr]
    split
    · rename_i hcond
      rw [Bool.and_eq_true, decide_eq_true_eq, decide_eq_true_eq] at hcond
      exact absurd hcond hc1
    · rfl

/-- Witness for the amended C8: integer subtraction is not directly
lowered and raises the NotImplementedError at a concrete input. -/
theorem binop_outside_set_error_witness :
    Gen.eval_expr ⟨fun _ => some ⟨.loc, false⟩, fun _ => .i32, fun c => c, false⟩ []
      (.binop "-" (.name "x") (.name "y")) =
      .error (.notImplementedError "- op between i32 and i32") :=
  binop_outside_set_error.1
    ⟨fun _ => some ⟨.loc, false⟩, fun _ => .i32, fun c => c, false⟩ [] "-"
    (.name "x") (.name "y") _ _ rfl rfl (by decide) (by decide) rfl rfl

/-- Witness for the amended C3 at concrete inputs: a left type with an
override delegates to it even though an exact pair for the operand names
exists in the table. -/
theorem eq_lookup_order_witness :
    Binop.w_EQ (fun _ _ => false) (fun _ => true)
      ⟨"i32", true, .userImpl "custom", false, .userImpl ""⟩
      ⟨"i32", false, .userImpl "", false, .userImpl ""⟩ =
      .ok (some (.userImpl "custom")) ∧
    Binop.lookupExact "==" "i32" "i32" = some .i32_eq := by
  constructor
  · have h := ((eq_lookup_order.1 (fun _ _ => false) (fun _ => true)
      ⟨"i32", true, .userImpl "custom", false, .userImpl ""⟩
      ⟨"i32", false, .userImpl "", false, .userImpl ""⟩).1 (by decide))
    rw [h]
    decide
  · decide

/-! ### FQN parse/print round trip (claim C1) -/

theorem plainChar_not_ws {c : Char} (h : plainChar c = true) : c.isWhitespace = false := by
  by_contra hw
  rw [Bool.not_eq_false] at hw
  simp only [Char.isWhitespace, Bool.or_eq_true, decide_eq_true_eq] at hw
  rcases hw with ((h1 | h1) | h1) | h1 <;> subst h1 <;> exact absurd h (by decide)

theorem plainChar_ne {c : Char} (h : plainChar c = true) :
    c ≠ '[' ∧ c ≠ ']' ∧ c ≠ ',' ∧ c ≠ ':' ∧ c ≠ '#' := by
  refine ⟨?_, ?_, ?_, ?_, ?_⟩ <;> intro he <;> subst he <;> exact absurd h (by decide)

theorem t_plain {c : Char} (hc : plainChar c = true) (cs : List Char) (acc : List Char) :
    tokenizeAux (c :: cs) acc 0 = tokenizeAux cs (acc ++ [c]) 0 := by
  obtain ⟨h1, h2, h3, h4, h5⟩ := plainChar_ne hc
  have hw := plainChar_not_ws hc
  conv_lhs => rw [tokenizeAux.eq_def]
  split
  · rename_i heq
    exact List.noConfusion heq
  · rename_i heq
    injection heq with e1 _
    exact absurd e1 h4
  · rename_i c' d hne heq
    injection heq with e1 e2
    subst e1; subst e2
    rw [hw]
    simp only [Bool.false_eq_true, if_false]
    rw [if_neg (by rintro ⟨(h | h | h), _⟩ <;> simp_all)]
    rw [if_neg h1, if_neg h2, if_neg (by rintro ⟨h, _⟩; exact h5 h)]

theorem t_lbrack (cs : List Char) (acc : List Char) :
    tokenizeAux ('[' :: cs) acc 0 = flushL acc ++ ["["] ++ tokenizeAux cs [] 0 := rfl

theorem t_rbrack (cs : List Char) (acc : List Char) :
    tokenizeAux (']' :: cs) acc 0 = flushL acc ++ ["]"] ++ tokenizeAux cs [] 0 := rfl

theorem t_comma (cs : List Char) (acc : List Char) :
    tokenizeAux (',' :: cs) acc 0 = flushL acc ++ [","] ++ tokenizeAux cs [] 0 := rfl

theorem t_hash (cs : List Char) (acc : List Char) :
    tokenizeAux ('#' :: cs) acc 0 = flushL acc ++ ["#"] ++ tokenizeAux cs [] 0 := rfl

theorem t_dcolon (cs : List Char) (acc : List Char) :
    tokenizeAux (':' :: ':' :: cs) acc 0 = flushL acc ++ ["::"] ++ tokenizeAux cs [] 0 := rfl

theorem t_space (cs : List Char) (acc : List Char) :
    tokenizeAux (' ' :: cs) acc 0 = tokenizeAux cs acc 0 := rfl

theorem t_run (s : List Char) (hs : s.all plainChar = true) (acc : List Char) (k : List Char) :
    tokenizeAux (s ++ k) acc 0 = tokenizeAux k (acc ++ s) 0 := by
  induction s generalizing acc with
  | nil => simp
  | cons c s' ih =>
    simp only [List.all_cons, Bool.and_eq_true] at hs
    rw [List.cons_append, t_plain hs.1, ih hs.2]
    simp

theorem flushL_of_ne {s : String} (h : s.isEmpty = false) : flushL s.data = [s] := by
  have hc : s.data.isEmpty = false := by
    by_contra hb
    rw [Bool.not_eq_false, List.isEmpty_iff] at hb
    have hs : s = "" := congrArg String.mk hb
    subst hs
    exact absurd h (by decide)
  unfold flushL
  rw [hc]
  rfl

theorem tokenizeAux_items : ∀ (its : List Item), wfItems its = true →
    tokenizeAux (itemsChars its) [] 0 = itemsToks its
  | [], _ => rfl
  | .lbrack :: rest, h => by
    rw [itemsChars, itemChars, List.cons_append, List.nil_append, t_lbrack,
        tokenizeAux_items rest h]
    rfl
  | .rbrack :: rest, h => by
    rw [itemsChars, itemChars, List.cons_append, List.nil_append, t_rbrack,
        tokenizeAux_items rest h]
    rfl
  | .commaSp :: rest, h => by
    rw [itemsChars, itemChars]
    rw [show (([',', ' '] : List Char) ++ itemsChars rest) =
        ',' :: ' ' :: itemsChars rest from rfl]
    rw [t_comma, t_space, tokenizeAux_items rest h]
    rfl
  | .dcolon :: rest, h => by
    rw [itemsChars, itemChars]
    rw [show (([':', ':'] : List Char) ++ itemsChars rest) =
        ':' :: ':' :: itemsChars rest from rfl]
    rw [t_dcolon, tokenizeAux_items rest h]
    rfl
  | .hash :: rest, h => by
    rw [itemsChars, itemChars, List.cons_append, List.nil_append, t_hash,
        tokenizeAux_items rest h]
    rfl
  | .nameI s :: [], h => by
    simp only [wfItems, Bool.and_eq_true] at h
    have hr := t_run s.data h.1.1.2 [] []
    rw [List.append_nil, List.nil_append] at hr
    rw [itemsChars, itemChars, itemsChars, List.append_nil, hr]
    rw [show tokenizeAux [] s.data 0 = flushL s.data from rfl]
    rw [flushL_of_ne (by rw [Bool.not_eq_true'] at h; exact h.1.1.1)]
    rfl
  | .nameI s :: .nameI s2 :: rest, h => by
    simp [wfItems, headNotName] at h
  | .nameI s :: .lbrack :: rest, h => by
    simp only [wfItems, Bool.and_eq_true] at h
    rw [itemsChars, itemChars, t_run s.data h.1.1.2 [] _, List.nil_append]
    rw [itemsChars, itemChars, List.cons_append, List.nil_append, t_lbrack,
        tokenizeAux_items rest h.2]
    rw [flushL_of_ne (by rw [Bool.not_eq_true'] at h; exact h.1.1.1)]
    rfl
  | .nameI s :: .rbrack :: rest, h => by
    simp only [wfItems, Bool.and_eq_true] at h
    rw [itemsChars, itemChars, t_run s.data h.1.1.2 [] _, List.nil_append]
    rw [itemsChars, itemChars, List.cons_append, List.nil_append, t_rbrack,
        tokenizeAux_items rest h.2]
    rw [flushL_of_ne (by rw [Bool.not_eq_true'] at h; exact h.1.1.1)]
    rfl
  | .nameI s :: .commaSp :: rest, h => by
    simp only [wfItems, Bool.and_eq_true] at h
    rw [itemsChars, itemChars, t_run s.data h.1.1.2 [] _, List.nil_append]
    rw [itemsChars, itemChars]
    rw [show (([',', ' '] : List Char) ++ itemsChars rest) =
        ',' :: ' ' :: itemsChars rest from rfl]
    rw [t_comma, t_space, tokenizeAux_items rest h.2]
    rw [flushL_of_ne (by rw [Bool.not_eq_true'] at h; exact h.1.1.1)]
    rfl
  | .nameI s :: .dcolon :: rest, h => by
    simp only [wfItems, Bool.and_eq_true] at h
    rw [itemsChars, itemChars, t_run s.data h.1.1.2 [] _, List.nil_append]
    rw [itemsChars, itemChars]
    rw [show (([':', ':'] : List Char) ++ itemsChars rest) =
        ':' :: ':' :: itemsChars rest from rfl]
    rw [t_dcolon, tokenizeAux_items rest h.2]
    rw [flushL_of_ne (by rw [Bool.not_eq_true'] at h; exact h.1.1.1)]
    rfl
  | .nameI s :: .hash :: rest, h => by
    simp only [wfItems, Bool.and_eq_true] at h
    rw [itemsChars, itemChars, t_run s.data h.1.1.2 [] _, List.nil_append]
    rw [itemsChars, itemChars, List.cons_append, List.nil_append, t_hash,
        tokenizeAux_items rest h.2]
    rw [flushL_of_ne (by rw [Bool.not_eq_true'] at h; exact h.1.1.1)]
    rfl

theorem itemsToks_append (xs ys : List Item) :
    itemsToks (xs ++ ys) = itemsToks xs ++ itemsToks ys := by
  induction xs with
  | nil => rfl
  | cons it rest ih =>
    rw [List.cons_append, itemsToks, ih, itemsToks, List.append_assoc]

theorem strIsSpace_of_plain {s : String} (hp : plainStr s = true)
    (hn : s.isEmpty = false) : strIsSpace s = false := by
  have hc : s.data ≠ [] := by
    intro hb
    have hs : s = "" := congrArg String.mk hb
    subst hs
    exact absurd hn (by decide)
  match hd : s.data with
  | [] => exact absurd hd hc
  | c :: cs =>
    rw [plainStr, hd, List.all_cons, Bool.and_eq_true] at hp
    have hw : c.isWhitespace = false := by
      by_contra hwc
      rw [Bool.not_eq_false] at hwc
      simp only [Char.isWhitespace, Bool.or_eq_true, decide_eq_true_eq] at hwc
      rcases hwc with ((h1 | h1) | h1) | h1 <;> subst h1 <;>
        exact absurd hp.1 (by decide)
    rw [strIsSpace, hd, List.all_cons, hw]
    simp

theorem skipWs_noWs {ts : List String} (h : noWs ts = true) : skipWs ts = ts := by
  cases ts with
  | nil => rfl
  | cons t ts' =>
    rw [noWs, List.all_cons, Bool.and_eq_true] at h
    rw [skipWs, List.dropWhile_cons]
    rw [show strIsSpace t = false from by
      rcases h with ⟨h1, _⟩; rw [Bool.not_eq_true'] at h1; exact h1]
    rfl

theorem noWs_append (xs ys : List String) :
    noWs (xs ++ ys) = (noWs xs && noWs ys) := by
  simp [noWs, List.all_append]

theorem validQual_to_parts {q : PartList} (h : validQual q = true) :
    validParts q = true ∧ q ≠ .nil := by
  match q with
  | .nil => exact absurd h (by decide)
  | .cons p rest =>
    have h1 : (!(NSPart.str p = "builtins") && validPart p && validParts rest) = true := h
    rw [Bool.and_eq_true, Bool.and_eq_true] at h1
    constructor
    · show (validPart p && validParts rest) = true
      rw [Bool.and_eq_true]
      exact ⟨h1.1.2, h1.2⟩
    · intro hc
      exact PartList.noConfusion hc

theorem validPart_fields {name : String} {quals : QualList} {suffix : String}
    (h : validPart (.mk name quals suffix) = true) :
    name.isEmpty = false ∧ plainStr name = true ∧ plainStr suffix = true ∧
      validQuals quals = true := by
  have h1 : (!name.isEmpty && plainStr name && plainStr suffix && validQuals quals) = true := h
  rw [Bool.and_eq_true, Bool.and_eq_true, Bool.and_eq_true] at h1
  obtain ⟨⟨⟨ha, hb⟩, hc⟩, hd⟩ := h1
  rw [Bool.not_eq_true'] at ha
  exact ⟨ha, hb, hc, hd⟩

theorem tokP_nil_nosfx (name : String) : tokP (.mk name .nil "") = [name] := rfl

theorem tokP_nil_sfx (name : String) {suffix : String} (hs : suffix ≠ "") :
    tokP (.mk name .nil suffix) = [name, "#", suffix] := by
  rw [tokP]
  rw [show itemsPart (.mk name .nil suffix) =
      [Item.nameI name] ++ ([] : List Item)
      ++ (if suffix ≠ "" then [Item.hash, Item.nameI suffix] else []) from rfl]
  rw [if_pos hs]
  rfl

theorem tokP_q_nosfx (name : String) (q : PartList) (rest : QualList) :
    tokP (.mk name (.cons q rest) "") =
      name :: "[" :: (tokQ (.cons q rest) ++ ["]"]) := by
  rw [tokP]
  rw [show itemsPart (.mk name (.cons q rest) "") =
      [Item.nameI name]
      ++ ([Item.lbrack] ++ itemsQuals (.cons q rest) ++ [Item.rbrack])
      ++ ([] : List Item) from rfl]
  rw [List.append_nil, itemsToks_append, itemsToks_append, itemsToks_append]
  rw [show itemsToks (itemsQuals (QualList.cons q rest)) = tokQ (.cons q rest) from rfl]
  simp [itemsToks, itemTok]

theorem tokP_q_sfx (name : String) (q : PartList) (rest : QualList)
    {suffix : String} (hs : suffix ≠ "") :
    tokP (.mk name (.cons q rest) suffix) =
      name :: "[" :: (tokQ (.cons q rest) ++ "]" :: "#" :: [suffix]) := by
  rw [tokP]
  rw [show itemsPart (.mk name (.cons q rest) suffix) =
      [Item.nameI name]
      ++ ([Item.lbrack] ++ itemsQuals (.cons q rest) ++ [Item.rbrack])
      ++ (if suffix ≠ "" then [Item.hash, Item.nameI suffix] else []) from rfl]
  rw [if_pos hs]
  simp only [itemsToks_append]
  rw [show itemsToks (itemsQuals (QualList.cons q rest)) = tokQ (.cons q rest) from rfl]
  simp [itemsToks, itemTok]

theorem tokQ_one (q : PartList) : tokQ (.cons q .nil) = tokF q := rfl

theorem tokQ_cons (q : PartList) (q2 : PartList) (rest : QualList) :
    tokQ (.cons q (.cons q2 rest)) = tokF q ++ "," :: tokQ (.cons q2 rest) := by
  rw [tokQ]
  rw [show itemsQuals (QualList.cons q (QualList.cons q2 rest)) =
      itemsParts q ++ [Item.commaSp] ++ itemsQuals (QualList.cons q2 rest) from rfl]
  simp only [itemsToks_append]
  rw [show itemsToks (itemsParts q) = tokF q from rfl]
  rw [show itemsToks (itemsQuals (QualList.cons q2 rest)) = tokQ (.cons q2 rest) from rfl]
  simp [itemsToks, itemTok]

theorem tokF_one (p : NSPart) : tokF (.cons p .nil) = tokP p := rfl

theorem tokF_cons (p : NSPart) (p2 : NSPart) (rest : PartList) :
    tokF (.cons p (.cons p2 rest)) = tokP p ++ "::" :: tokF (.cons p2 rest) := by
  rw [tokF]
  rw [show itemsParts (PartList.cons p (PartList.cons p2 rest)) =
      itemsPart p ++ [Item.dcolon] ++ itemsParts (PartList.cons p2 rest) from rfl]
  simp only [itemsToks_append]
  rw [show itemsToks (itemsPart p) = tokP p from rfl]
  rw [show itemsToks (itemsParts (PartList.cons p2 rest)) = tokF (.cons p2 rest) from rfl]
  simp [itemsToks, itemTok]

theorem noWs_cons (t : String) (ts : List String) :
    noWs (t :: ts) = (!strIsSpace t && noWs ts) := rfl

mutual
theorem noWsP : ∀ (p : NSPart), validPart p = true → noWs (tokP p) = true
  | .mk name quals suffix, h => by
    obtain ⟨hne, hnp, hsp, hq⟩ := validPart_fields h
    have hn : strIsSpace name = false := strIsSpace_of_plain hnp hne
    match quals with
    | .nil =>
      by_cases hs : suffix = ""
      · subst hs
        rw [tokP_nil_nosfx, show noWs [name] = (!strIsSpace name && true) from rfl, hn]
        decide
      · have he : suffix.isEmpty = false := by
          by_contra hb
          rw [Bool.not_eq_false, String.isEmpty_iff] at hb
          exact hs hb
        rw [tokP_nil_sfx name hs, noWs_cons, noWs_cons, hn,
            show noWs [suffix] = (!strIsSpace suffix && true) from rfl,
            strIsSpace_of_plain hsp he]
        decide
    | .cons q rest =>
      have hqq : noWs (tokQ (.cons q rest)) = true := noWsQ (.cons q rest) hq
      by_cases hs : suffix = ""
      · subst hs
        rw [tokP_q_nosfx, noWs_cons, noWs_cons, noWs_append, hqq, hn]
        decide
      · have he : suffix.isEmpty = false := by
          by_contra hb
          rw [Bool.not_eq_false, String.isEmpty_iff] at hb
          exact hs hb
        rw [tokP_q_sfx name q rest hs, noWs_cons, noWs_cons, noWs_append, hqq, hn,
            show noWs ("]" :: "#" :: [suffix]) =
              (!strIsSpace "]" && (!strIsSpace "#" && (!strIsSpace suffix && true))) from rfl,
            strIsSpace_of_plain hsp he]
        decide

theorem noWsQ : ∀ (qs : QualList), validQuals qs = true → noWs (tokQ qs) = true
  | .nil, _ => rfl
  | .cons q .nil, h => by
    have h1 : (validQual q && validQuals .nil) = true := h
    rw [Bool.and_eq_true] at h1
    rw [tokQ_one]
    exact noWsF q (validQual_to_parts h1.1).1
  | .cons q (.cons q2 rest), h => by
    have h1 : (validQual q && validQuals (.cons q2 rest)) = true := h
    rw [Bool.and_eq_true] at h1
    have h2 : noWs (tokQ (.cons q2 rest)) = true := noWsQ (.cons q2 rest) h1.2
    rw [tokQ_cons, noWs_append, noWsF q (validQual_to_parts h1.1).1, noWs_cons, h2]
    decide

theorem noWsF : ∀ (ps : PartList), validParts ps = true → noWs (tokF ps) = true
  | .nil, _ => rfl
  | .cons p .nil, h => by
    have h1 : (validPart p && validParts .nil) = true := h
    rw [Bool.and_eq_true] at h1
    rw [tokF_one]
    exact noWsP p h1.1
  | .cons p (.cons p2 rest), h => by
    have h1 : (validPart p && validParts (.cons p2 rest)) = true := h
    rw [Bool.and_eq_true] at h1
    have h2 : noWs (tokF (.cons p2 rest)) = true := noWsF (.cons p2 rest) h1.2
    rw [tokF_cons, noWs_append, noWsP p h1.1, noWs_cons, h2]
    decide
end

theorem skipWs_cons {t : String} (ts : List String) (h : strIsSpace t = false) :
    skipWs (t :: ts) = t :: ts := by
  rw [skipWs, List.dropWhile_cons, h]
  rfl

theorem needP_pos (p : NSPart) : 1 ≤ needP p := by
  cases p with
  | mk n q s =>
    cases q with
    | nil => exact Nat.le_refl 1
    | cons a b => exact Nat.le_add_right 1 _

theorem needQ_pos (qs : QualList) : 1 ≤ needQ qs :=
  match qs with
  | .nil => Nat.le_refl 1
  | .cons q .nil => by show 1 ≤ 1 + needF q; omega
  | .cons q (.cons q2 r) => by show 1 ≤ 1 + needF q + needQ (.cons q2 r); omega

theorem needF_pos (ps : PartList) : 1 ≤ needF ps :=
  match ps with
  | .nil => Nat.le_refl 1
  | .cons p .nil => by show 1 ≤ 1 + needP p; omega
  | .cons p (.cons p2 r) => by show 1 ≤ 1 + needP p + needF (.cons p2 r); omega

mutual
theorem fuelP : ∀ (p : NSPart), needP p + 1 ≤ 2 * (tokP p).length
  | .mk name quals suffix => by
    match quals with
    | .nil =>
      have hn : needP (.mk name .nil suffix) = 1 := rfl
      by_cases hs : suffix = ""
      · subst hs
        rw [hn, tokP_nil_nosfx]
        simp
      · rw [hn, tokP_nil_sfx name hs]
        simp
    | .cons q rest =>
      have hq := fuelQ (.cons q rest)
      have hn : needP (.mk name (.cons q rest) suffix) = 1 + needQ (.cons q rest) := rfl
      by_cases hs : suffix = ""
      · subst hs
        rw [hn, tokP_q_nosfx]
        simp only [List.length_cons, List.length_append]
        omega
      · rw [hn, tokP_q_sfx name q rest hs]
        simp only [List.length_cons, List.length_append]
        omega

theorem fuelQ : ∀ (qs : QualList), needQ qs ≤ 2 * (tokQ qs).length + 2
  | .nil => by decide
  | .cons q .nil => by
    have hf := fuelF q
    have hn : needQ (.cons q .nil) = 1 + needF q := rfl
    rw [hn, tokQ_one]
    omega
  | .cons q (.cons q2 r) => by
    have hf := fuelF q
    have h2 := fuelQ (.cons q2 r)
    have hn : needQ (.cons q (.cons q2 r)) = 1 + needF q + needQ (.cons q2 r) := rfl
    rw [hn, tokQ_cons]
    simp only [List.length_append, List.length_cons]
    omega

theorem fuelF : ∀ (ps : PartList), needF ps ≤ 2 * (tokF ps).length + 1
  | .nil => by decide
  | .cons p .nil => by
    have hp := fuelP p
    have hn : needF (.cons p .nil) = 1 + needP p := rfl
    rw [hn, tokF_one]
    omega
  | .cons p (.cons p2 r) => by
    have hp := fuelP p
    have h2 := fuelF (.cons p2 r)
    have hn : needF (.cons p (.cons p2 r)) = 1 + needP p + needF (.cons p2 r) := rfl
    rw [hn, tokF_cons]
    simp only [List.length_append, List.length_cons]
    omega
end

theorem parseSuffix_none (nm : String) (quals : QualList) {ts : List String}
    (hn : noWs ts = true) (hh : ∀ t ts', ts = t :: ts' → t ≠ "#") :
    parseSuffixPart nm quals ts = .ok (.mk nm quals "", ts) := by
  unfold parseSuffixPart
  rw [skipWs_noWs hn]
  cases ts with
  | nil => rfl
  | cons t ts' =>
    split
    · rename_i ts1 heq
      injection heq with e1 _
      exact absurd e1 (hh t ts' rfl)
    · rfl

theorem parseSuffix_some (nm : String) (quals : QualList) {sfx : String}
    (hp : plainStr sfx = true) (hne : sfx.isEmpty = false) (ts : List String) :
    parseSuffixPart nm quals ("#" :: sfx :: ts) = .ok (.mk nm quals sfx, ts) := by
  unfold parseSuffixPart
  rw [skipWs_cons _ (by decide)]
  split
  · rename_i ts1 heq
    injection heq with _ e2
    subst e2
    rw [skipWs_cons _ (strIsSpace_of_plain hp hne)]
  · rename_i hne2
    exact (hne2 (sfx :: ts) rfl).elim

mutual
theorem parse_part_tok : ∀ (p : NSPart) (f : Nat) (rest : List String),
    validPart p = true → needP p ≤ f + 1 → noWs rest = true →
    (∀ t ts', rest = t :: ts' → t ≠ "[" ∧ t ≠ "#") →
    parse_part (f + 1) (tokP p ++ rest) = .ok (p, rest)
  | .mk name quals suffix, f, rest, hv, hf, hr, hh => by
    obtain ⟨hne, hnp, hsp, hq⟩ := validPart_fields hv
    have hn : strIsSpace name = false := strIsSpace_of_plain hnp hne
    match quals with
    | .nil =>
      by_cases hs : suffix = ""
      · subst hs
        rw [tokP_nil_nosfx, List.singleton_append]
        rw [parse_part]
        rw [skipWs_cons _ hn]
        dsimp only
        rw [skipWs_noWs hr]
        cases rest with
        | nil =>
          dsimp only
          exact parseSuffix_none name .nil rfl (fun t ts' hcc => List.noConfusion hcc)
        | cons t ts' =>
          split
          · rename_i ts3 heq
            injection heq with e1 _
            exact absurd e1 (hh t ts' rfl).1
          · exact parseSuffix_none name .nil hr
              (fun t2 ts2 hcc => by
                injection hcc with e1 e2
                exact e1 ▸ (hh t ts' rfl).2)
      · have hse : suffix.isEmpty = false := by
          by_contra hb
          rw [Bool.not_eq_false, String.isEmpty_iff] at hb
          exact hs hb
        rw [tokP_nil_sfx name hs]
        rw [show (([name, "#", suffix] : List String) ++ rest) =
            name :: "#" :: suffix :: rest from rfl]
        rw [parse_part]
        rw [skipWs_cons _ hn]
        dsimp only
        rw [skipWs_cons _ (by decide)]
        split
        · rename_i ts3 heq
          injection heq with e1 _
          exact absurd e1 (by decide)
        · exact parseSuffix_some name .nil hsp hse rest
    | .cons q qrest =>
      have hq1 : (validQual q && validQuals qrest) = true := hq
      rw [Bool.and_eq_true] at hq1
      have hfq : needP (.mk name (.cons q qrest) suffix) = 1 + needQ (.cons q qrest) := rfl
      have hqfuel : needQ (.cons q qrest) ≤ f := by
        rw [hfq] at hf
        omega
      have hnoq : noWs (tokQ (.cons q qrest)) = true := noWsQ (.cons q qrest) hq
      cases f with
      | zero => exact absurd hqfuel (by have := needQ_pos (.cons q qrest); omega)
      | succ f2 =>
      by_cases hs : suffix = ""
      · subst hs
        rw [tokP_q_nosfx]
        rw [show ((name :: "[" :: (tokQ (.cons q qrest) ++ ["]"])) ++ rest) =
            name :: "[" :: (tokQ (.cons q qrest) ++ "]" :: rest) from by
          simp [List.append_assoc]]
        rw [parse_part]
        rw [skipWs_cons _ hn]
        dsimp only
        rw [skipWs_cons _ (by decide)]
        split
        · rename_i ts3 heq
          injection heq with _ e2
          subst e2
          rw [parse_quals_tok (.cons q qrest) f2 rest hq
              (fun hc => QualList.noConfusion hc) hqfuel hr]
          dsimp only [Bind.bind, Except.bind]
          rw [skipWs_cons _ (by decide)]
          split
          · rename_i ts5 heq2
            injection heq2 with _ e3
            subst e3
            exact parseSuffix_none name (.cons q qrest) hr
              (fun t2 ts2 hcc => by
                subst hcc
                exact (hh t2 ts2 rfl).2)
          · rename_i tok toks hno heq2
            injection heq2 with e1 _
            exact (hno e1.symm).elim
          · rename_i heq2
            exact List.noConfusion heq2
        · rename_i hnomatch
          exact (hnomatch (tokQ (.cons q qrest) ++ "]" :: rest) rfl).elim
      · have hse : suffix.isEmpty = false := by
          by_contra hb
          rw [Bool.not_eq_false, String.isEmpty_iff] at hb
          exact hs hb
        rw [tokP_q_sfx name q qrest hs]
        rw [show ((name :: "[" :: (tokQ (.cons q qrest) ++ "]" :: "#" :: [suffix])) ++ rest) =
            name :: "[" :: (tokQ (.cons q qrest) ++ "]" :: "#" :: suffix :: rest) from by
          simp [List.append_assoc]]
        rw [parse_part]
        rw [skipWs_cons _ hn]
        dsimp only
        rw [skipWs_cons _ (by decide)]
        split
        · rename_i ts3 heq
          injection heq with _ e2
          subst e2
          rw [parse_quals_tok (.cons q qrest) f2 ("#" :: suffix :: rest) hq
              (fun hc => QualList.noConfusion hc) hqfuel (by
                rw [noWs_cons, noWs_cons, hr, strIsSpace_of_plain hsp hse]
                decide)]
          dsimp only [Bind.bind, Except.bind]
          rw [skipWs_cons _ (by decide)]
          split
          · rename_i ts5 heq2
            injection heq2 with _ e3
            subst e3
            exact parseSuffix_some name (.cons q qrest) hsp hse rest
          · rename_i tok toks hno heq2
            injection heq2 with e1 _
            exact (hno e1.symm).elim
          · rename_i heq2
            exact List.noConfusion heq2
        · rename_i hnomatch
          exact (hnomatch (tokQ (.cons q qrest) ++ "]" :: "#" :: suffix :: rest) rfl).elim

theorem parse_fqn_tok : ∀ (ps : PartList) (f : Nat) (rest : List String),
    validParts ps = true → ps ≠ .nil → needF ps ≤ f + 1 → noWs rest = true →
    (∀ t ts', rest = t :: ts' → t ≠ "[" ∧ t ≠ "#" ∧ t ≠ "::") →
    parse_fqn (f + 1) (tokF ps ++ rest) = .ok (ps, rest)
  | .nil, _, _, _, hnil, _, _, _ => absurd rfl hnil
  | .cons p .nil, f, rest, hv, _, hf, hr, hh => by
    have h1 : (validPart p && validParts .nil) = true := hv
    rw [Bool.and_eq_true] at h1
    have hfp : needP p ≤ f := by
      have he : needF (.cons p .nil) = 1 + needP p := rfl
      rw [he] at hf
      omega
    cases f with
    | zero => exact absurd hfp (by have := needP_pos p; omega)
    | succ f2 =>
      rw [tokF_one, parse_fqn]
      rw [parse_part_tok p f2 rest h1.1 hfp hr
          (fun t ts' hc => ⟨(hh t ts' hc).1, (hh t ts' hc).2.1⟩)]
      dsimp only [Bind.bind, Except.bind]
      rw [skipWs_noWs hr]
      cases rest with
      | nil => rfl
      | cons t ts' =>
        split
        · rename_i ts2 heq
          injection heq with e1 _
          exact absurd e1 (hh t ts' rfl).2.2
        · rfl
  | .cons p (.cons p2 prest), f, rest, hv, _, hf, hr, hh => by
    have h1 : (validPart p && validParts (.cons p2 prest)) = true := hv
    rw [Bool.and_eq_true] at h1
    have hfp : needP p ≤ f := by
      have he : needF (.cons p (.cons p2 prest)) =
        1 + needP p + needF (.cons p2 prest) := rfl
      rw [he] at hf
      have := needF_pos (.cons p2 prest)
      omega
    have hff : needF (.cons p2 prest) ≤ f := by
      have he : needF (.cons p (.cons p2 prest)) =
        1 + needP p + needF (.cons p2 prest) := rfl
      rw [he] at hf
      have := needP_pos p
      omega
    cases f with
    | zero => exact absurd hfp (by have := needP_pos p; omega)
    | succ f2 =>
      rw [tokF_cons]
      rw [show ((tokP p ++ "::" :: tokF (.cons p2 prest)) ++ rest) =
          tokP p ++ "::" :: (tokF (.cons p2 prest) ++ rest) from by
        simp [List.append_assoc]]
      rw [parse_fqn]
      have hnof : noWs (tokF (.cons p2 prest)) = true := noWsF (.cons p2 prest) h1.2
      rw [parse_part_tok p f2 ("::" :: (tokF (.cons p2 prest) ++ rest)) h1.1 hfp
          (by rw [noWs_cons, noWs_append, hnof, hr]; decide)
          (fun t ts' hc => by injection hc with e1 _; subst e1; exact ⟨by decide, by decide⟩)]
      dsimp only [Bind.bind, Except.bind]
      rw [skipWs_cons _ (by decide)]
      split
      · rename_i ts2 heq
        injection heq with _ e2
        subst e2
        rw [parse_fqn_tok (.cons p2 prest) f2 rest h1.2
            (fun hc => PartList.noConfusion hc) hff hr hh]
      · rename_i hnomatch
        exact (hnomatch (tokF (.cons p2 prest) ++ rest) rfl).elim

theorem parse_quals_tok : ∀ (qs : QualList) (f : Nat) (rest : List String),
    validQuals qs = true → qs ≠ .nil → needQ qs ≤ f + 1 → noWs rest = true →
    parse_qualifiers (f + 1) (tokQ qs ++ "]" :: rest) = .ok (qs, "]" :: rest)
  | .nil, _, _, _, hnil, _, _ => absurd rfl hnil
  | .cons q .nil, f, rest, hv, _, hf, hr => by
    have h1 : (validQual q && validQuals .nil) = true := hv
    rw [Bool.and_eq_true] at h1
    obtain ⟨hvp, hqnil⟩ := validQual_to_parts h1.1
    have hfq : needF q ≤ f := by
      have he : needQ (.cons q .nil) = 1 + needF q := rfl
      rw [he] at hf
      omega
    cases f with
    | zero => exact absurd hfq (by have := needF_pos q; omega)
    | succ f2 =>
      rw [tokQ_one, parse_qualifiers]
      rw [parse_fqn_tok q f2 ("]" :: rest) hvp hqnil hfq
          (by rw [noWs_cons, hr]; decide)
          (fun t ts' hc => by
            injection hc with e1 _
            subst e1
            exact ⟨by decide, by decide, by decide⟩)]
      dsimp only [Bind.bind, Except.bind]
      rw [skipWs_cons _ (by decide)]
      rfl
  | .cons q (.cons q2 qrest), f, rest, hv, _, hf, hr => by
    have h1 : (validQual q && validQuals (.cons q2 qrest)) = true := hv
    rw [Bool.and_eq_true] at h1
    obtain ⟨hvp, hqnil⟩ := validQual_to_parts h1.1
    have hfq : needF q ≤ f := by
      have he : needQ (.cons q (.cons q2 qrest)) =
        1 + needF q + needQ (.cons q2 qrest) := rfl
      rw [he] at hf
      have := needQ_pos (.cons q2 qrest)
      omega
    have hfq2 : needQ (.cons q2 qrest) ≤ f := by
      have he : needQ (.cons q (.cons q2 qrest)) =
        1 + needF q + needQ (.cons q2 qrest) := rfl
      rw [he] at hf
      have := needF_pos q
      omega
    cases f with
    | zero => exact absurd hfq (by have := needF_pos q; omega)
    | succ f2 =>
      rw [tokQ_cons]
      rw [show ((tokF q ++ "," :: tokQ (.cons q2 qrest)) ++ "]" :: rest) =
          tokF q ++ "," :: (tokQ (.cons q2 qrest) ++ "]" :: rest) from by
        simp [List.append_assoc]]
      rw [parse_qualifiers]
      have hnoq2 : noWs (tokQ (.cons q2 qrest)) = true := noWsQ (.cons q2 qrest) h1.2
      rw [parse_fqn_tok q f2 ("," :: (tokQ (.cons q2 qrest) ++ "]" :: rest)) hvp hqnil hfq
          (by rw [noWs_cons, noWs_append, noWs_cons, hnoq2, hr]; decide)
          (fun t ts' hc => by
            injection hc with e1 _
            subst e1
            exact ⟨by decide, by decide, by decide⟩)]
      dsimp only [Bind.bind, Except.bind]
      rw [skipWs_cons _ (by decide)]
      split
      · rename_i heq
        exact List.noConfusion heq
      · rename_i ts3 heq
        injection heq with _ e2
        subst e2
        rw [parse_quals_tok (.cons q2 qrest) f2 rest h1.2
            (fun hc => QualList.noConfusion hc) hfq2 hr]
      · rename_i ts3 heq
        injection heq with e1 _
        exact absurd e1 (by decide)
      · rename_i head2 tail2 hnc hnb heq
        injection heq with e1 _
        exact (hnc e1.symm).elim
end

theorem itemsChars_append (xs ys : List Item) :
    itemsChars (xs ++ ys) = itemsChars xs ++ itemsChars ys := by
  induction xs with
  | nil => rfl
  | cons it rest ih =>
    rw [List.cons_append, itemsChars, ih, itemsChars, List.append_assoc]

theorem validQual_fields {p : NSPart} {rest : PartList}
    (h : validQual (.cons p rest) = true) :
    ¬(p.str = "builtins") ∧ validPart p = true ∧ validParts rest = true := by
  have h1 : (!(NSPart.str p = "builtins") && validPart p && validParts rest) = true := h
  rw [Bool.and_eq_true, Bool.and_eq_true] at h1
  refine ⟨?_, h1.1.2, h1.2⟩
  have h2 := h1.1.1
  rw [Bool.not_eq_true', decide_eq_false_iff_not] at h2
  exact h2

theorem humanName_valid : ∀ {q : PartList}, validQual q = true → humanName q = fullname q
  | .nil, h => absurd h (by decide)
  | .cons p .nil, h => by
    obtain ⟨hb, _, _⟩ := validQual_fields h
    have he : humanName (.cons p .nil) =
        (if p.str = "builtins" then joinSep "::" (strList .nil)
         else joinSep "::" (p.str :: strList .nil)) := rfl
    rw [he, if_neg hb]
    rfl
  | .cons p (.cons p2 .nil), h => by
    obtain ⟨hb, _, _⟩ := validQual_fields h
    have he : humanName (.cons p (.cons p2 .nil)) =
        (if p.str = "builtins" && p2.name = "def" then defForm p2
         else if p.str = "builtins" then joinSep "::" (strList (.cons p2 .nil))
         else joinSep "::" (p.str :: strList (.cons p2 .nil))) := rfl
    rw [he]
    have hd : (decide (p.str = "builtins")) = false := decide_eq_false hb
    simp only [hd, Bool.false_and]
    rw [if_neg Bool.false_ne_true, if_neg hb]
    rfl
  | .cons p (.cons p2 (.cons p3 r)), h => by
    obtain ⟨hb, _, _⟩ := validQual_fields h
    have he : humanName (.cons p (.cons p2 (.cons p3 r))) =
        (if p.str = "builtins" then joinSep "::" (strList (.cons p2 (.cons p3 r)))
         else joinSep "::" (p.str :: strList (.cons p2 (.cons p3 r)))) := rfl
    rw [he, if_neg hb]
    rfl

theorem validQuals_head {q : PartList} {qs : QualList}
    (h : validQuals (.cons q qs) = true) :
    validQual q = true ∧ validQuals qs = true := by
  have h1 : (validQual q && validQuals qs) = true := h
  rw [Bool.and_eq_true] at h1
  exact h1

theorem validParts_head {p : NSPart} {ps : PartList}
    (h : validParts (.cons p ps) = true) :
    validPart p = true ∧ validParts ps = true := by
  have h1 : (validPart p && validParts ps) = true := h
  rw [Bool.and_eq_true] at h1
  exact h1

mutual
theorem strP_items : ∀ (p : NSPart), validPart p = true →
    (NSPart.str p).data = itemsChars (itemsPart p)
  | .mk name quals suffix, h => by
    obtain ⟨hne, hnp, hsp, hq⟩ := validPart_fields h
    match quals with
    | .nil =>
      by_cases hs : suffix = ""
      · subst hs
        show name.data = itemsChars [Item.nameI name]
        simp [itemsChars, itemChars]
      · have he : NSPart.str (.mk name .nil suffix) =
            (if suffix ≠ "" then name ++ "#" ++ suffix else name) := rfl
        have hi : itemsPart (.mk name .nil suffix) =
            [Item.nameI name] ++ ([] : List Item)
            ++ (if suffix ≠ "" then [Item.hash, Item.nameI suffix] else []) := rfl
        rw [he, hi, if_pos hs, if_pos hs]
        simp [itemsChars_append, itemsChars, itemChars, String.data_append]
    | .cons q r =>
      have hqd : (joinSep ", " (humanList (.cons q r))).data =
          itemsChars (itemsQuals (.cons q r)) := strQ_items (.cons q r) hq
      by_cases hs : suffix = ""
      · subst hs
        have he : NSPart.str (.mk name (.cons q r) "") =
            name ++ "[" ++ joinSep ", " (humanList (.cons q r)) ++ "]" := rfl
        have hi : itemsPart (.mk name (.cons q r) "") =
            [Item.nameI name]
            ++ ([Item.lbrack] ++ itemsQuals (.cons q r) ++ [Item.rbrack])
            ++ ([] : List Item) := rfl
        rw [he, hi]
        simp [itemsChars_append, itemsChars, itemChars, String.data_append, hqd]
      · have he : NSPart.str (.mk name (.cons q r) suffix) =
            (if suffix ≠ "" then
              (name ++ "[" ++ joinSep ", " (humanList (.cons q r)) ++ "]") ++ "#" ++ suffix
             else name ++ "[" ++ joinSep ", " (humanList (.cons q r)) ++ "]") := rfl
        have hi : itemsPart (.mk name (.cons q r) suffix) =
            [Item.nameI name]
            ++ ([Item.lbrack] ++ itemsQuals (.cons q r) ++ [Item.rbrack])
            ++ (if suffix ≠ "" then [Item.hash, Item.nameI suffix] else []) := rfl
        rw [he, hi, if_pos hs, if_pos hs]
        simp [itemsChars_append, itemsChars, itemChars, String.data_append, hqd]

theorem strQ_items : ∀ (qs : QualList), validQuals qs = true →
    (joinSep ", " (humanList qs)).data = itemsChars (itemsQuals qs)
  | .nil, _ => rfl
  | .cons q .nil, h => by
    obtain ⟨h1, _⟩ := validQuals_head h
    show (joinSep ", " [humanName q]).data = itemsChars (itemsParts q)
    rw [show joinSep ", " [humanName q] = humanName q from rfl]
    rw [humanName_valid h1]
    exact strF_items q (by
      match q, h1 with
      | .cons p r, h1 =>
        have hf := validQual_fields h1
        show (validPart p && validParts r) = true
        rw [Bool.and_eq_true]
        exact ⟨hf.2.1, hf.2.2⟩)
  | .cons q (.cons q2 r), h => by
    obtain ⟨h1, h2⟩ := validQuals_head h
    have hrec : (joinSep ", " (humanList (.cons q2 r))).data =
        itemsChars (itemsQuals (.cons q2 r)) := strQ_items (.cons q2 r) h2
    have hjo : joinSep ", " (humanList (.cons q (.cons q2 r))) =
        humanName q ++ ", " ++ joinSep ", " (humanList (.cons q2 r)) := rfl
    have hi : itemsQuals (.cons q (.cons q2 r)) =
        itemsParts q ++ [Item.commaSp] ++ itemsQuals (.cons q2 r) := rfl
    rw [hjo, hi, humanName_valid h1]
    have hfq : (fullname q).data = itemsChars (itemsParts q) :=
      strF_items q (by
        match q, h1 with
        | .cons p r2, h1 =>
          have hf := validQual_fields h1
          show (validPart p && validParts r2) = true
          rw [Bool.and_eq_true]
          exact ⟨hf.2.1, hf.2.2⟩)
    simp [itemsChars_append, itemsChars, itemChars, String.data_append, hfq, hrec]

theorem strF_items : ∀ (ps : PartList), validParts ps = true →
    (fullname ps).data = itemsChars (itemsParts ps)
  | .nil, _ => rfl
  | .cons p .nil, h => by
    obtain ⟨h1, _⟩ := validParts_head h
    show (joinSep "::" [NSPart.str p]).data = itemsChars (itemsPart p)
    rw [show joinSep "::" [NSPart.str p] = NSPart.str p from rfl]
    exact strP_items p h1
  | .cons p (.cons p2 r), h => by
    obtain ⟨h1, h2⟩ := validParts_head h
    have hrec : (fullname (.cons p2 r)).data =
        itemsChars (itemsParts (.cons p2 r)) := strF_items (.cons p2 r) h2
    have hjo : fullname (.cons p (.cons p2 r)) =
        NSPart.str p ++ "::" ++ fullname (.cons p2 r) := rfl
    have hi : itemsParts (.cons p (.cons p2 r)) =
        itemsPart p ++ [Item.dcolon] ++ itemsParts (.cons p2 r) := rfl
    rw [hjo, hi]
    simp [itemsChars_append, itemsChars, itemChars, String.data_append,
      strP_items p h1, hrec]
end

theorem wfItems_append : ∀ (xs ys : List Item), wfItems xs = true → wfItems ys = true →
    headNotName ys = true → wfItems (xs ++ ys) = true
  | [], ys, _, hy, _ => hy
  | .nameI s :: xs', ys, hx, hy, hh => by
    have h1 : ((!s.isEmpty) && s.data.all plainChar && headNotName xs' && wfItems xs') = true := hx
    rw [Bool.and_eq_true, Bool.and_eq_true, Bool.and_eq_true] at h1
    show ((!s.isEmpty) && s.data.all plainChar && headNotName (xs' ++ ys)
      && wfItems (xs' ++ ys)) = true
    rw [Bool.and_eq_true, Bool.and_eq_true, Bool.and_eq_true]
    refine ⟨⟨⟨h1.1.1.1, h1.1.1.2⟩, ?_⟩, wfItems_append xs' ys h1.2 hy hh⟩
    match xs' with
    | [] => exact hh
    | .nameI s2 :: r => exact Bool.noConfusion h1.1.2
    | .lbrack :: r => rfl
    | .rbrack :: r => rfl
    | .commaSp :: r => rfl
    | .dcolon :: r => rfl
    | .hash :: r => rfl
  | .lbrack :: xs', ys, hx, hy, hh => by
    show wfItems (xs' ++ ys) = true
    exact wfItems_append xs' ys hx hy hh
  | .rbrack :: xs', ys, hx, hy, hh => by
    show wfItems (xs' ++ ys) = true
    exact wfItems_append xs' ys hx hy hh
  | .commaSp :: xs', ys, hx, hy, hh => by
    show wfItems (xs' ++ ys) = true
    exact wfItems_append xs' ys hx hy hh
  | .dcolon :: xs', ys, hx, hy, hh => by
    show wfItems (xs' ++ ys) = true
    exact wfItems_append xs' ys hx hy hh
  | .hash :: xs', ys, hx, hy, hh => by
    show wfItems (xs' ++ ys) = true
    exact wfItems_append xs' ys hx hy hh

mutual
theorem wfP : ∀ (p : NSPart), validPart p = true → wfItems (itemsPart p) = true
  | .mk name quals suffix, h => by
    obtain ⟨hne, hnp, hsp, hq⟩ := validPart_fields h
    have hnb : (!name.isEmpty) = true := by rw [hne]; rfl
    match quals with
    | .nil =>
      by_cases hs : suffix = ""
      · subst hs
        show ((!name.isEmpty) && name.data.all plainChar && headNotName []
          && wfItems []) = true
        rw [Bool.and_eq_true, Bool.and_eq_true, Bool.and_eq_true]
        exact ⟨⟨⟨hnb, hnp⟩, rfl⟩, rfl⟩
      · have hse : suffix.isEmpty = false := by
          by_contra hb
          rw [Bool.not_eq_false, String.isEmpty_iff] at hb
          exact hs hb
        have hi : itemsPart (.mk name .nil suffix) =
            [Item.nameI name] ++ ([] : List Item)
            ++ (if suffix ≠ "" then [Item.hash, Item.nameI suffix] else []) := rfl
        rw [hi, if_pos hs]
        rw [show ([Item.nameI name] ++ ([] : List Item)
          ++ [Item.hash, Item.nameI suffix]) =
          [Item.nameI name, Item.hash, Item.nameI suffix] from by simp]
        show ((!name.isEmpty) && name.data.all plainChar
          && headNotName [Item.hash, Item.nameI suffix]
          && wfItems [Item.hash, Item.nameI suffix]) = true
        rw [Bool.and_eq_true, Bool.and_eq_true, Bool.and_eq_true]
        refine ⟨⟨⟨hnb, hnp⟩, rfl⟩, ?_⟩
        show ((!suffix.isEmpty) && suffix.data.all plainChar && headNotName []
          && wfItems []) = true
        rw [Bool.and_eq_true, Bool.and_eq_true, Bool.and_eq_true]
        exact ⟨⟨⟨by rw [hse]; rfl, hsp⟩, rfl⟩, rfl⟩
    | .cons q r =>
      have hwq : wfItems (itemsQuals (.cons q r)) = true := wfQ (.cons q r) hq
      have hQ : wfItems (Item.lbrack :: (itemsQuals (.cons q r) ++ [Item.rbrack])) = true := by
        show wfItems (itemsQuals (.cons q r) ++ [Item.rbrack]) = true
        exact wfItems_append _ _ hwq rfl rfl
      by_cases hs : suffix = ""
      · subst hs
        have hi : itemsPart (.mk name (.cons q r) "") =
            Item.nameI name :: (Item.lbrack :: (itemsQuals (.cons q r) ++ [Item.rbrack])) := by
          show [Item.nameI name]
            ++ ([Item.lbrack] ++ itemsQuals (.cons q r) ++ [Item.rbrack])
            ++ ([] : List Item) =
            Item.nameI name :: (Item.lbrack :: (itemsQuals (.cons q r) ++ [Item.rbrack]))
          simp
        rw [hi]
        show ((!name.isEmpty) && name.data.all plainChar
          && headNotName (Item.lbrack :: (itemsQuals (.cons q r) ++ [Item.rbrack]))
          && wfItems (Item.lbrack :: (itemsQuals (.cons q r) ++ [Item.rbrack]))) = true
        rw [Bool.and_eq_true, Bool.and_eq_true, Bool.and_eq_true]
        exact ⟨⟨⟨hnb, hnp⟩, rfl⟩, hQ⟩
      · have hse : suffix.isEmpty = false := by
          by_contra hb
          rw [Bool.not_eq_false, String.isEmpty_iff] at hb
          exact hs hb
        have hS : wfItems [Item.hash, Item.nameI suffix] = true := by
          show ((!suffix.isEmpty) && suffix.data.all plainChar && headNotName []
            && wfItems []) = true
          rw [Bool.and_eq_true, Bool.and_eq_true, Bool.and_eq_true]
          exact ⟨⟨⟨by rw [hse]; rfl, hsp⟩, rfl⟩, rfl⟩
        have hi : itemsPart (.mk name (.cons q r) suffix) =
            Item.nameI name :: (Item.lbrack ::
              ((itemsQuals (.cons q r) ++ [Item.rbrack]) ++ [Item.hash, Item.nameI suffix])) := by
          have h0 : itemsPart (.mk name (.cons q r) suffix) =
              [Item.nameI name]
              ++ ([Item.lbrack] ++ itemsQuals (.cons q r) ++ [Item.rbrack])
              ++ (if suffix ≠ "" then [Item.hash, Item.nameI suffix] else []) := rfl
          rw [h0, if_pos hs]
          simp
        rw [hi]
        show ((!name.isEmpty) && name.data.all plainChar
          && headNotName (Item.lbrack ::
            ((itemsQuals (.cons q r) ++ [Item.rbrack]) ++ [Item.hash, Item.nameI suffix]))
          && wfItems (Item.lbrack ::
            ((itemsQuals (.cons q r) ++ [Item.rbrack]) ++ [Item.hash, Item.nameI suffix]))) = true
        rw [Bool.and_eq_true, Bool.and_eq_true, Bool.and_eq_true]
        refine ⟨⟨⟨hnb, hnp⟩, rfl⟩, ?_⟩
        show wfItems ((itemsQuals (.cons q r) ++ [Item.rbrack])
          ++ [Item.hash, Item.nameI suffix]) = true
        exact wfItems_append _ _ (wfItems_append _ _ hwq rfl rfl) hS rfl

theorem wfQ : ∀ (qs : QualList), validQuals qs = true → wfItems (itemsQuals qs) = true
  | .nil, _ => rfl
  | .cons q .nil, h => by
    obtain ⟨h1, _⟩ := validQuals_head h
    show wfItems (itemsParts q) = true
    exact wfF q (by
      match q, h1 with
      | .cons p r2, h1 =>
        have hf := validQual_fields h1
        show (validPart p && validParts r2) = true
        rw [Bool.and_eq_true]
        exact ⟨hf.2.1, hf.2.2⟩)
  | .cons q (.cons q2 r), h => by
    obtain ⟨h1, h2⟩ := validQuals_head h
    have hrec : wfItems (itemsQuals (.cons q2 r)) = true := wfQ (.cons q2 r) h2
    have hf : wfItems (itemsParts q) = true := wfF q (by
      match q, h1 with
      | .cons p r2, h1 =>
        have hf := validQual_fields h1
        show (validPart p && validParts r2) = true
        rw [Bool.and_eq_true]
        exact ⟨hf.2.1, hf.2.2⟩)
    have hi : itemsQuals (.cons q (.cons q2 r)) =
        itemsParts q ++ (Item.commaSp :: itemsQuals (.cons q2 r)) := by
      show itemsParts q ++ [Item.commaSp] ++ itemsQuals (.cons q2 r) =
        itemsParts q ++ (Item.commaSp :: itemsQuals (.cons q2 r))
      simp
    rw [hi]
    exact wfItems_append _ _ hf hrec rfl

theorem wfF : ∀ (ps : PartList), validParts ps = true → wfItems (itemsParts ps) = true
  | .nil, _ => rfl
  | .cons p .nil, h => by
    obtain ⟨h1, _⟩ := validParts_head h
    show wfItems (itemsPart p) = true
    exact wfP p h1
  | .cons p (.cons p2 r), h => by
    obtain ⟨h1, h2⟩ := validParts_head h
    have hrec : wfItems (itemsParts (.cons p2 r)) = true := wfF (.cons p2 r) h2
    have hi : itemsParts (.cons p (.cons p2 r)) =
        itemsPart p ++ (Item.dcolon :: itemsParts (.cons p2 r)) := by
      show itemsPart p ++ [Item.dcolon] ++ itemsParts (.cons p2 r) =
        itemsPart p ++ (Item.dcolon :: itemsParts (.cons p2 r))
      simp
    rw [hi]
    exact wfItems_append _ _ (wfP p h1) hrec rfl
end


theorem tokenize_fullname {q : PartList} (h : validParts q = true) :
    tokenize (fullname q) = tokF q := by
  have h2 : (fullname q).data = itemsChars (itemsParts q) := strF_items q h
  rw [tokenize, h2, tokenizeAux_items _ (wfF q h)]
  rfl

/-- C1 counterexample: the claim `parse(str(q)) == q` for every
constructible QN fails.  For `foo[builtins::def[i32, i32]]` — the exact
shape the compiler builds for a function-type qualifier — `str` renders the
qualifier through `human_name` as `def(i32) -> i32`, the tokenizer folds
that into the single token `def(i32)->i32` (whitespace is skipped without
flushing, parentheses and `->` accumulate), and the reparsed QN differs
from the original even under the program's own canonical-string equality
`FQN.__eq__`. -/
theorem parse_roundtrip_cex :
    fullname builtinsDefQN = "foo[def(i32) -> i32]" ∧
    (FQNParser_parse (fullname builtinsDefQN)).map
      (fun r => fqnEq r builtinsDefQN) = .ok false :=
  ⟨rfl, rfl⟩

/-- C1 (amended): parse and print are exact inverses on every QN whose
segment names and suffixes are nonempty words over the name alphabet
(letters, digits, `_`, `.`) and in which no qualifier FQN, at any nesting
depth, starts with a part rendering as the reserved module name
`builtins` (that reserved form is rewritten by `human_name` during
rendering, so it cannot round-trip).  For every such QN `q`,
`FQNParser.parse (str(q))` succeeds and returns exactly `q`. -/
theorem parse_fullname_roundtrip (q : PartList) (h : validTop q = true) :
    FQNParser_parse (fullname q) = .ok q := by
  match q, h with
  | .cons p ps, h =>
    have hv : validParts (.cons p ps) = true := h
    have hne : (PartList.cons p ps) ≠ .nil := fun hc => PartList.noConfusion hc
    have hfuel : needF (.cons p ps) ≤ 2 * (tokF (.cons p ps)).length + 1 + 1 := by
      have := fuelF (.cons p ps)
      omega
    have hmain := parse_fqn_tok (.cons p ps) (2 * (tokF (.cons p ps)).length + 1) []
      hv hne hfuel rfl (fun t ts' hc => List.noConfusion hc)
    rw [List.append_nil] at hmain
    unfold FQNParser_parse
    dsimp only
    rw [tokenize_fullname hv]
    rw [show (2 * (tokF (PartList.cons p ps)).length + 2)
        = (2 * (tokF (PartList.cons p ps)).length + 1 + 1) from rfl]
    rw [hmain]
    rfl

/-- Witness: the amended C1 round trip evaluated at the concrete QN
`mod::dict[i32, f64]::foo#0`. -/
theorem parse_fullname_roundtrip_witness :
    validTop roundtripExample = true ∧
    FQNParser_parse (fullname roundtripExample) = .ok roundtripExample :=
  ⟨by decide, parse_fullname_roundtrip roundtripExample (by decide)⟩

end Spy
